import Mathlib

/-!
Verification development for the NumberLink solver
(src/NumberLink/numberlink_solver_v1.cc).

The C++ program is shallowly embedded:
* the connectivity table `mates_` (a vector of shorts holding, for every
  cell key, its own key for a free cell, the key of the other end of its
  chain for a cell with one line segment, or the sentinel -1 for a closed
  cell) is a `List Int`;
* the undo log `mate_stack_` is a `List (Nat × Int)` whose head is the top
  of the stack;
* the memo tables `memo_` are a function from index and 128-bit hash to an
  optional count;
* solution counts (doubles in the source, used there only as exact small
  sums of 1.0) are modelled as exact naturals;
* the recursive search `Solve`/`Connect` is embedded with an explicit fuel
  parameter so that it is structurally recursive; fuel `size + 1 - k`
  suffices for a call at index `k`, and the top-level entry point supplies
  it.
-/

namespace NumberLink

/-- Connectivity state of the solver: the `mates_` vector together with the
undo log `mate_stack_` (head = most recent mutation). -/
structure St where
  mates : List Int
  stack : List (Nat × Int)
  deriving Repr, DecidableEq

/-- `NumberLink::ChangeMates`: mutate one slot of `mates_`, first pushing the
previous value on the undo log (only when the value actually changes). The
C++ function also returns the previous stack size, which no caller uses. -/
def ChangeMates (s : St) (cellKey : Nat) (cellValue : Int) : St :=
  if s.mates.getD cellKey 0 ≠ cellValue then
    ⟨s.mates.set cellKey cellValue, (cellKey, s.mates.getD cellKey 0) :: s.stack⟩
  else s

/-- Auxiliary loop of `NumberLink::RevertMates`: pop undo-log entries,
restoring the recorded previous values, until the log length is back to
`n`. -/
def RevertAux (n : Nat) : List Int → List (Nat × Int) → St
  | mates, [] => ⟨mates, []⟩
  | mates, (k, v) :: rest =>
    if n < rest.length + 1 then RevertAux n (mates.set k v) rest
    else ⟨mates, (k, v) :: rest⟩

/-- `NumberLink::RevertMates`: roll the connectivity table back to the
checkpoint recorded as an undo-log length. -/
def RevertMates (s : St) (stackSize : Nat) : St :=
  RevertAux stackSize s.mates s.stack

/-- The four logged mutations `UniteMates` performs once its two early
checks have passed: close both endpoints and re-link the two former far
ends (`end1 = mates_[cell_key1]`, `end2 = mates_[cell_key2]`, both read
before the writes) to each other. -/
def FourWrites (s : St) (cellKey1 cellKey2 : Nat) : St :=
  ChangeMates
    (ChangeMates
      (ChangeMates (ChangeMates s cellKey1 (-1)) cellKey2 (-1))
      (s.mates.getD cellKey1 0).toNat (s.mates.getD cellKey2 0))
    (s.mates.getD cellKey2 0).toNat (s.mates.getD cellKey1 0)

/-- `NumberLink::UniteMates`: try to draw one line segment between the cells
`cellKey1` and `cellKey2`. Returns the success flag together with the
resulting state; on the two early failures (a closed endpoint, or closing a
cycle) nothing has been mutated, on the three late failures the logged
mutations are left applied for the caller to roll back. -/
def UniteMates (table : List Int) (s : St) (cellKey1 cellKey2 : Nat) :
    Bool × St :=
  -- Cannot connect any branch
  if s.mates.getD cellKey1 0 = -1 ∨ s.mates.getD cellKey2 0 = -1 then
    (false, s)
  -- Avoid making a cycle
  else if (cellKey1 : Int) = s.mates.getD cellKey2 0 ∧
      (cellKey2 : Int) = s.mates.getD cellKey1 0 then
    (false, s)
  -- Change states of mates to connect cell_key1 and cell_key2,
  -- then check the three constraints (see the source comments)
  else if (FourWrites s cellKey1 cellKey2).mates.getD cellKey1 0 = -1 ∧
      0 < table.getD cellKey1 0 then
    (false, FourWrites s cellKey1 cellKey2)
  else if (FourWrites s cellKey1 cellKey2).mates.getD cellKey2 0 = -1 ∧
      0 < table.getD cellKey2 0 then
    (false, FourWrites s cellKey1 cellKey2)
  else if 0 < table.getD (s.mates.getD cellKey1 0).toNat 0 ∧
      0 < table.getD (s.mates.getD cellKey2 0).toNat 0 ∧
      table.getD (s.mates.getD cellKey1 0).toNat 0 ≠
        table.getD (s.mates.getD cellKey2 0).toNat 0 then
    (false, FourWrites s cellKey1 cellKey2)
  else (true, FourWrites s cellKey1 cellKey2)

/-- 2 ^ 32, the modulus of the unsigned 32-bit arithmetic in `GetHash`. -/
def U32MOD : Nat := 4294967296

/-- Reduce to an unsigned 32-bit value. -/
def u32 (n : Nat) : Nat := n % U32MOD

/-- A cell value (a short, possibly -1) cast to unsigned 32-bit, as by
`(unsigned int)cell_keys[i]` in the source. -/
def toU32 (v : Int) : Nat := (v % (U32MOD : Int)).toNat

/-- One round of the XorShift mixing loop in `NumberLink::GetHash`.
In the source the update of `w` reads
`w = (w ^ (w >> 19)) ^ (t ^ (t >> 8)) + (unsigned int)cell_keys[i];`
which by C precedence is `(w ^ (w >> 19)) ^ ((t ^ (t >> 8)) + v)`. -/
def hashRound (st : Nat × Nat × Nat × Nat) (v : Int) : Nat × Nat × Nat × Nat :=
  let x := st.1
  let y := st.2.1
  let z := st.2.2.1
  let w := st.2.2.2
  let t := u32 (x ^^^ u32 (x <<< 11))
  (y, z, w, u32 ((w ^^^ (w >>> 19)) ^^^ u32 ((t ^^^ (t >>> 8)) + toU32 v)))

/-- `NumberLink::GetHash`: the 128-bit fingerprint (as the pair
`((x << 32) | y, (z << 32) | w)`) of a sequence of mate values. -/
def GetHash (cellKeys : List Int) : Nat × Nat :=
  let f := cellKeys.foldl hashRound (123456789, 362436069, 521288629, 88675123)
  (f.1 * U32MOD + f.2.1, f.2.2.1 * U32MOD + f.2.2.2)

/-! ### The cell indexer (`NumberLink::Initialize`) -/

/-- A NumberLink board: dimensions and the labels, where `table` lists the
cell labels in the key order (0 = blank, positive = endpoint id), exactly
as the member `table_` of the class stores them. -/
structure Board where
  width : Nat
  height : Nat
  table : List Int
  deriving Repr

/-- The number of cells, member `size_`. -/
def Board.size (B : Board) : Nat := B.width * B.height

/-- Is the coordinate pair inside the board? This is the (negation of the)
condition `x < 0 || width_ <= x || y < 0 || height_ <= y` of the inner
`do`/`while` loop of `Initialize`. -/
def Board.inb (B : Board) (p : Int × Int) : Bool :=
  decide (0 ≤ p.1) && decide (p.1 < (B.width : Int)) &&
  decide (0 ≤ p.2) && decide (p.2 < (B.height : Int))

/-- One execution of the body of the `do`/`while` loop of `Initialize`:
`x--; y++; if (x < 0) { x = y; y = 0; }`. -/
def stepCell (p : Int × Int) : Int × Int :=
  let x := p.1 - 1
  let y := p.2 + 1
  if x < 0 then (y, 0) else (x, y)

/-- The `do`/`while` loop of `Initialize`: step at least once, then keep
stepping while out of bounds. The loop terminates whenever cells remain to
be visited; `fuel` bounds the number of iterations (the theorems use it
with `width + height + 2`, which is always sufficient). -/
def Board.nextCell (B : Board) : Nat → Int × Int → Int × Int
  | 0, p => stepCell p
  | fuel + 1, p =>
    let q := stepCell p
    if B.inb q then q else B.nextCell fuel q

/-- Fuel that always suffices for one `do`/`while` loop of `Initialize`. -/
def Board.stepFuel (B : Board) : Nat := B.width + B.height + 2

/-- The coordinate visited by `Initialize` at cell key `k` (the member
arrays `cell_x_`, `cell_y_`): the trace of the generation loop starting at
`(0, 0)`. -/
def Board.keyToCell (B : Board) : Nat → Int × Int
  | 0 => (0, 0)
  | k + 1 => B.nextCell B.stepFuel (B.keyToCell k)

/-- The list of all cell coordinates in key order. -/
def Board.cellList (B : Board) : List (Int × Int) :=
  (List.range B.size).map B.keyToCell

/-- `NumberLink::GetCellKey`: the reverse lookup table `keys_`, recovering
the cell key of a coordinate. -/
def Board.key (B : Board) (x y : Int) : Nat :=
  B.cellList.findIdx (fun p => p = (x, y))

/-- The array `start_` computed at the end of `Initialize`: for a cell key
`i` the key to look back to (the key of the cell above, or of the cell to
the left for a top-row cell, or 0 for the origin), with the guard value
`start_[size_] = size_` for every argument past the last cell. -/
def Board.start (B : Board) (i : Nat) : Nat :=
  if i < B.size then
    let p := B.keyToCell i
    if 0 < p.2 then B.key p.1 (p.2 - 1)
    else if 0 < p.1 then B.key (p.1 - 1) p.2
    else 0
  else B.size

/-! ### The frontier search engine (`NumberLink::Solve` / `Connect`) -/

/-- The memo tables, member `memo_`: for each cell index a map from the
128-bit hash to an already-computed count. -/
def Memo : Type := Nat → Nat × Nat → Option Nat

/-- The empty memo table. -/
def Memo.empty : Memo := fun _ _ => none

/-- Inserting one entry into a memo table. -/
def Memo.insert (m : Memo) (k : Nat) (h : Nat × Nat) (v : Nat) : Memo :=
  fun k' h' => if k' = k ∧ h' = h then some v else m k' h'

/-- The loop over newly fixed cells at the top of `NumberLink::Solve`:
every cell key in `[start_[cell_key - 1], start_[cell_key])` is checked,
and the whole branch is cut (the loop returns 0) unless each blank cell is
self or closed and each labeled cell is not self. -/
def Board.retirePass (B : Board) (mates : List Int) (cellKey : Nat) : Bool :=
  (List.range' (B.start (cellKey - 1))
      (B.start cellKey - B.start (cellKey - 1))).all fun hidden =>
    if B.table.getD hidden 0 = 0 then
      decide (mates.getD hidden 0 = -1) || decide (mates.getD hidden 0 = (hidden : Int))
    else
      !decide (mates.getD hidden 0 = (hidden : Int))

/-- The slice of mate values hashed for memoization at `cell_key`:
`mate_tuple(mates_.begin() + start_[cell_key], mates_.begin() + cell_key)`. -/
def Board.mateTuple (B : Board) (mates : List Int) (cellKey : Nat) : List Int :=
  (mates.drop (B.start cellKey)).take (cellKey - B.start cellKey)

/-- The "connect the cell with the upper cell" block of
`NumberLink::Connect` (lines: `if (0 <= up_cell_key) { if (UniteMates(...))
{ ... Solve ... } RevertMates(revert_point); }`), with the recursion
abstracted as `recur`. -/
def BranchUp (B : Board) (recur : Nat → St → Memo → Nat × St × Memo)
    (cellKey revertPoint : Nat) (upCellKey : Option Nat) (s : St)
    (m : Memo) : Nat × St × Memo :=
  match upCellKey with
  | none => (0, s, m)
  | some up =>
    if (UniteMates B.table s cellKey up).1 then
      let r := recur (cellKey + 1) (UniteMates B.table s cellKey up).2 m
      (r.1, RevertMates r.2.1 revertPoint, r.2.2)
    else (0, RevertMates (UniteMates B.table s cellKey up).2 revertPoint, m)

/-- The "connect the cell with the left cell" block of
`NumberLink::Connect`, including the nested "upper and left" attempt
explored inside the successful left merge, all swept by the single
`RevertMates(revert_point)` at the end of the block. -/
def BranchLeft (B : Board) (recur : Nat → St → Memo → Nat × St × Memo)
    (cellKey revertPoint : Nat) (leftCellKey upCellKey : Option Nat)
    (s : St) (m : Memo) : Nat × St × Memo :=
  match leftCellKey with
  | none => (0, s, m)
  | some left =>
    if (UniteMates B.table s cellKey left).1 then
      let r := recur (cellKey + 1) (UniteMates B.table s cellKey left).2 m
      match upCellKey with
      | none => (r.1, RevertMates r.2.1 revertPoint, r.2.2)
      | some up =>
        if (UniteMates B.table r.2.1 cellKey up).1 then
          let r' := recur (cellKey + 1)
            (UniteMates B.table r.2.1 cellKey up).2 r.2.2
          (r.1 + r'.1, RevertMates r'.2.1 revertPoint, r'.2.2)
        else (r.1, RevertMates (UniteMates B.table r.2.1 cellKey up).2
          revertPoint, r.2.2)
    else (0, RevertMates (UniteMates B.table s cellKey left).2 revertPoint, m)

/-- The body of `NumberLink::Connect`, with the recursive call
`Solve(cell_key + 1)` abstracted as `recur`. Enumerates the four edge
alternatives for the current cell exactly as the source does, threading the
connectivity state and the memo table, and summing the counts. The
flags `connected_x_` / `connected_y_` and the rendering are omitted: they
only affect the printed diagram, never a count or the connectivity state. -/
def Connect (B : Board) (recur : Nat → St → Memo → Nat × St × Memo)
    (cellKey : Nat) (s : St) (m : Memo) : Nat × St × Memo :=
  let x := (B.keyToCell cellKey).1
  let y := (B.keyToCell cellKey).2
  let leftCellKey : Option Nat := if 0 < x then some (B.key (x - 1) y) else none
  let upCellKey : Option Nat := if 0 < y then some (B.key x (y - 1)) else none
  let revertPoint := s.stack.length
  -- Connect the cell with nothing
  let r1 := recur (cellKey + 1) s m
  -- Connect the cell with the upper cell
  let r2 := BranchUp B recur cellKey revertPoint upCellKey r1.2.1 r1.2.2
  -- Connect the cell with the left cell (and nested: with both)
  let r3 := BranchLeft B recur cellKey revertPoint leftCellKey upCellKey
    r2.2.1 r2.2.2
  (r1.1 + r2.1 + r3.1, r3.2.1, r3.2.2)

/-- The terminal / memoization part of `NumberLink::Solve` (everything after
the retire loop), with the recursion abstracted as `recur`. The
`solved_` flag and the call to `Print` are omitted: they only control the
one-shot rendering, never a count. -/
def AfterRetire (B : Board) (recur : Nat → St → Memo → Nat × St × Memo)
    (cellKey : Nat) (s : St) (m : Memo) : Nat × St × Memo :=
  -- If all the cells are filled
  if cellKey = B.size then (1, s, m)
  else
    -- Connect successive cells if this sequence of mates has not been seen
    let mateHash := GetHash (B.mateTuple s.mates cellKey)
    match m cellKey mateHash with
    | some v => (v, s, m)
    | none =>
      let r := Connect B recur cellKey s m
      (r.1, r.2.1, (r.2.2).insert cellKey mateHash r.1)

/-- `NumberLink::Solve`, with fuel making the recursion structural. A call
at index `cell_key` only ever needs fuel `size + 1 - cell_key`; with
insufficient fuel the result is the junk value 0 (never reached from the
entry point `Board.solve`). -/
def SolveAux (B : Board) : Nat → Nat → St → Memo → Nat × St × Memo
  | 0, _, s, m => (0, s, m)
  | fuel + 1, cellKey, s, m =>
    -- See the newly fixed cells
    if 0 < cellKey ∧ B.retirePass s.mates cellKey = false then (0, s, m)
    else AfterRetire B (SolveAux B fuel) cellKey s m

/-- The connectivity state right after `Initialize`: every cell is its own
mate and the undo log is empty. -/
def Board.initSt (B : Board) : St :=
  ⟨List.map (fun (k : Nat) => (k : Int)) (List.range B.size), []⟩

/-- The whole search `Solve()` on a freshly initialized board; only the
solution count. -/
def Board.solve (B : Board) : Nat :=
  (SolveAux B (B.size + 1) 0 B.initSt Memo.empty).1

/-- The condition of the input loop of `main`:
`while (2 == scanf("%d%d", &width, &height) && width && height)`. A parsed
dimension pair is processed (a `NumberLink` object is constructed and its
key assignment produced) exactly when this holds. -/
def mainLoopProcesses (width height : Int) : Bool :=
  decide (width ≠ 0) && decide (height ≠ 0)

/-! ## Lemmas about the connectivity state manager -/

/-- Writing back the value a slot already holds does not change a list. -/
theorem List.set_getD_self (l : List Int) (k : Nat) :
    l.set k (l.getD k 0) = l := by
  induction l generalizing k with
  | nil => rfl
  | cons a l ih =>
    cases k with
    | zero => simp
    | succ k => simpa using ih k

theorem ChangeMates_mates_length (s : St) (k : Nat) (v : Int) :
    (ChangeMates s k v).mates.length = s.mates.length := by
  unfold ChangeMates
  split <;> simp

/-- Reading the connectivity table after `ChangeMates`. -/
theorem ChangeMates_getD (s : St) (k : Nat) (v : Int) (j : Nat) :
    (ChangeMates s k v).mates.getD j 0 =
      if j = k ∧ j < s.mates.length then v else s.mates.getD j 0 := by
  unfold ChangeMates
  by_cases hjk : j = k
  · subst hjk
    by_cases hlt : j < s.mates.length
    · conv_rhs => rw [if_pos (And.intro rfl hlt)]
      split
      · simp [List.getD_eq_getElem?_getD, List.getElem?_set, hlt]
      · next h => push_neg at h; exact h
    · conv_rhs => rw [if_neg (fun h => hlt h.right)]
      have hle : s.mates.length ≤ j := le_of_not_lt hlt
      split
      · show (s.mates.set j _).getD j 0 = s.mates.getD j 0
        rw [List.getD_eq_default _ _ (by simpa using hle),
          List.getD_eq_default _ _ hle]
      · rfl
  · conv_rhs => rw [if_neg (fun h => hjk h.left)]
    split
    · simp [List.getD_eq_getElem?_getD, List.getElem?_set, Ne.symm hjk]
    · rfl

theorem ChangeMates_stack_length (s : St) (k : Nat) (v : Int) :
    s.stack.length ≤ (ChangeMates s k v).stack.length := by
  unfold ChangeMates
  split <;> simp

/-- The states an undo-log-only mutator can produce from `s`: `t` arises
from `s` by a sequence of `ChangeMates` calls. -/
inductive Evol (s : St) : St → Prop
  | refl : Evol s s
  | change (t : St) (k : Nat) (v : Int) : Evol s t → Evol s (ChangeMates t k v)

theorem Evol.trans {s t u : St} (h1 : Evol s t) (h2 : Evol t u) : Evol s u := by
  induction h2 with
  | refl => exact h1
  | change t' k v _ ih => exact Evol.change t' k v ih

theorem Evol.stack_le {s t : St} (h : Evol s t) :
    s.stack.length ≤ t.stack.length := by
  induction h with
  | refl => exact le_refl _
  | change t' k v _ ih => exact le_trans ih (ChangeMates_stack_length t' k v)

theorem Evol.mates_length {s t : St} (h : Evol s t) :
    t.mates.length = s.mates.length := by
  induction h with
  | refl => rfl
  | change t' k v _ ih => rw [ChangeMates_mates_length]; exact ih

/-- Rolling back to the full current undo-log length is a no-op. -/
theorem RevertMates_self (s : St) : RevertMates s s.stack.length = s := by
  unfold RevertMates
  rcases s with ⟨mates, stack⟩
  cases stack with
  | nil => rfl
  | cons e rest =>
    rcases e with ⟨k, v⟩
    simp [RevertAux]

/-- Rolling back from any state produced by `ChangeMates` calls lands
exactly on the checkpointed state: both the connectivity table and the
undo log. -/
theorem Evol.revert_exact {s t : St} (h : Evol s t) :
    RevertMates t s.stack.length = s := by
  induction h with
  | refl => exact RevertMates_self s
  | change t' k v h ih =>
    unfold ChangeMates
    by_cases hne : t'.mates.getD k 0 ≠ v
    · simp only [if_pos hne]
      unfold RevertMates RevertAux
      have hlen : s.stack.length < t'.stack.length + 1 :=
        Nat.lt_succ_of_le h.stack_le
      simp only [List.length_cons, if_pos hlen]
      have : (t'.mates.set k v).set k (t'.mates.getD k 0) = t'.mates := by
        rw [List.set_set, List.set_getD_self]
      rw [this]
      exact ih
    · simp only [if_neg hne]
      exact ih

/-- `UniteMates` only mutates through `ChangeMates`. -/
theorem FourWrites_evol (s : St) (a b : Nat) : Evol s (FourWrites s a b) :=
  Evol.change _ _ _ (Evol.change _ _ _ (Evol.change _ _ _
    (Evol.change _ _ _ Evol.refl)))

theorem UniteMates_evol (table : List Int) (s : St) (a b : Nat) :
    Evol s (UniteMates table s a b).2 := by
  unfold UniteMates
  split
  · exact Evol.refl
  · split
    · exact Evol.refl
    · split
      · exact FourWrites_evol s a b
      · split
        · exact FourWrites_evol s a b
        · split
          · exact FourWrites_evol s a b
          · exact FourWrites_evol s a b

/-- Applying a whole sequence of `tryConnect` attempts (arguments given as
a list of key pairs), keeping only the resulting states, successful or
not. -/
def applyUnites (table : List Int) (s : St) : List (Nat × Nat) → St
  | [] => s
  | (a, b) :: ops => applyUnites table (UniteMates table s a b).2 ops

theorem applyUnites_evol (table : List Int) (s : St) (ops : List (Nat × Nat)) :
    Evol s (applyUnites table s ops) := by
  induction ops generalizing s with
  | nil => exact Evol.refl
  | cons op ops ih =>
    rcases op with ⟨a, b⟩
    exact Evol.trans (UniteMates_evol table s a b) (ih _)

/-- C5. Rollback exactness: for every starting connectivity state, after
taking a checkpoint (recording the undo-log length) and then performing any
sequence of `tryConnect` (`UniteMates`) calls, successful or failed,
rolling back to the checkpoint restores the entire mates array to its value
at the moment of the checkpoint. -/
theorem rollback_exactness (table : List Int) (s : St)
    (ops : List (Nat × Nat)) :
    (RevertMates (applyUnites table s ops) s.stack.length).mates = s.mates := by
  rw [(applyUnites_evol table s ops).revert_exact]

/-- C10. Early-failure atomicity of `UniteMates`: when one of the two ends
is already closed or the two cells are the two ends of one chain (a cycle),
the function returns `false` with the state — mates array and undo log —
exactly as it was at entry; in every other case (success or one of the
three late legality failures) the four logged mutations are left applied. -/
theorem uniteMates_early_return (table : List Int) (s : St) (a b : Nat) :
    (((s.mates.getD a 0 = -1 ∨ s.mates.getD b 0 = -1) ∨
        ((a : Int) = s.mates.getD b 0 ∧ (b : Int) = s.mates.getD a 0)) →
      UniteMates table s a b = (false, s))
    ∧ (¬((s.mates.getD a 0 = -1 ∨ s.mates.getD b 0 = -1) ∨
        ((a : Int) = s.mates.getD b 0 ∧ (b : Int) = s.mates.getD a 0)) →
      (UniteMates table s a b).2 = FourWrites s a b) := by
  constructor
  · intro h
    unfold UniteMates
    rcases h with h | h
    · rw [if_pos h]
    · rw [if_neg, if_pos h]
      rintro (hc | hc)
      · have : (b : Int) = -1 := h.2.trans hc
        omega
      · have : (a : Int) = -1 := h.1.trans hc
        omega
  · intro h
    unfold UniteMates
    rw [if_neg (fun hc => h (Or.inl hc)), if_neg (fun hc => h (Or.inr hc))]
    split
    · rfl
    · split
      · rfl
      · split <;> rfl

/-- C9 (counterexample part): the driver loop's guard accepts the dataset
`width = -1, height = 2`, so a board with non-positive width is processed
(the indexer is constructed and a key assignment produced) instead of
failing: no dimension check beyond non-zeroness exists in the program. -/
theorem invalid_dims_counterexample : mainLoopProcesses (-1) 2 = true := by
  decide

/-- C9 (amended): the driver refuses to process a parsed dimension pair —
terminating the input loop, so that no indexer is constructed and no key
assignment is produced — exactly when the width or the height equals zero;
negative dimensions pass the guard unvalidated, and no `InvalidDimensions`
error exists anywhere in the program. -/
theorem main_guard_iff_zero (w h : Int) :
    mainLoopProcesses w h = false ↔ w = 0 ∨ h = 0 := by
  unfold mainLoopProcesses
  rcases Decidable.em (w = 0) with hw | hw <;>
    rcases Decidable.em (h = 0) with hh | hh <;> simp [hw, hh]

/-! ## Reading the state after the four writes of `UniteMates` -/

theorem FourWrites_length (s : St) (a b : Nat) :
    (FourWrites s a b).mates.length = s.mates.length := by
  unfold FourWrites
  rw [ChangeMates_mates_length, ChangeMates_mates_length,
    ChangeMates_mates_length, ChangeMates_mates_length]

/-- The value of each slot after the four writes, when all four written
slots are in range. -/
theorem FourWrites_getD (s : St) (a b j : Nat)
    (ha : a < s.mates.length) (hb : b < s.mates.length)
    (h1 : (s.mates.getD a 0).toNat < s.mates.length)
    (h2 : (s.mates.getD b 0).toNat < s.mates.length) :
    (FourWrites s a b).mates.getD j 0 =
      if j = (s.mates.getD b 0).toNat then s.mates.getD a 0
      else if j = (s.mates.getD a 0).toNat then s.mates.getD b 0
      else if j = b then -1
      else if j = a then -1
      else s.mates.getD j 0 := by
  unfold FourWrites
  rw [ChangeMates_getD, ChangeMates_mates_length, ChangeMates_mates_length,
    ChangeMates_mates_length, ChangeMates_getD, ChangeMates_mates_length,
    ChangeMates_mates_length, ChangeMates_getD, ChangeMates_mates_length,
    ChangeMates_getD]
  by_cases hj2 : j = (s.mates.getD b 0).toNat
  · rw [if_pos ⟨hj2, hj2 ▸ h2⟩, if_pos hj2]
  · rw [if_neg (fun hc => hj2 hc.1), if_neg hj2]
    by_cases hj1 : j = (s.mates.getD a 0).toNat
    · rw [if_pos ⟨hj1, hj1 ▸ h1⟩, if_pos hj1]
    · rw [if_neg (fun hc => hj1 hc.1), if_neg hj1]
      by_cases hjb : j = b
      · rw [if_pos ⟨hjb, hjb ▸ hb⟩, if_pos hjb]
      · rw [if_neg (fun hc => hjb hc.1), if_neg hjb]
        by_cases hja : j = a
        · rw [if_pos ⟨hja, hja ▸ ha⟩, if_pos hja]
        · rw [if_neg (fun hc => hja hc.1), if_neg hja]

/-! ## The symmetry and range invariant of the mates table -/

/-- Every tracked mate value is the closed sentinel -1 or a valid key. -/
def RangeOk (size : Nat) (m : List Int) : Prop :=
  ∀ c, c < size → m.getD c 0 = -1 ∨ (0 ≤ m.getD c 0 ∧ m.getD c 0 < (size : Int))

/-- The symmetry invariant: whenever a cell's mate is a normal key (self
included), that key's mate points back. -/
def Invol (size : Nat) (m : List Int) : Prop :=
  ∀ c, c < size → 0 ≤ m.getD c 0 → m.getD (m.getD c 0).toNat 0 = (c : Int)

/-- The well-formedness bundle preserved by every `UniteMates` call. -/
def GoodM (size : Nat) (m : List Int) : Prop :=
  m.length = size ∧ RangeOk size m ∧ Invol size m

/-- Shared shape lemma: either early check fires exactly on the returned
`false, s` pair. -/
theorem UniteMates_eq_of_early (table : List Int) (s : St) (a b : Nat)
    (h : (s.mates.getD a 0 = -1 ∨ s.mates.getD b 0 = -1) ∨
      ((a : Int) = s.mates.getD b 0 ∧ (b : Int) = s.mates.getD a 0)) :
    UniteMates table s a b = (false, s) := by
  unfold UniteMates
  rcases h with h | h
  · rw [if_pos h]
  · rw [if_neg, if_pos h]
    rintro (hc | hc)
    · have : (b : Int) = -1 := h.2.trans hc
      omega
    · have : (a : Int) = -1 := h.1.trans hc
      omega

/-- Shared shape lemma: past the early checks the state component is the
four-writes state, whatever the three late checks decide. -/
theorem UniteMates_snd_of_not_early (table : List Int) (s : St) (a b : Nat)
    (h : ¬((s.mates.getD a 0 = -1 ∨ s.mates.getD b 0 = -1) ∨
      ((a : Int) = s.mates.getD b 0 ∧ (b : Int) = s.mates.getD a 0))) :
    (UniteMates table s a b).2 = FourWrites s a b := by
  unfold UniteMates
  rw [if_neg (fun hc => h (Or.inl hc)), if_neg (fun hc => h (Or.inr hc))]
  split
  · rfl
  · split
    · rfl
    · split <;> rfl

/-- The basic facts about the two chain ends read by `UniteMates` once the
early checks have passed, in a state satisfying the invariant bundle. -/
theorem ends_facts (size : Nat) (s : St) (a b : Nat)
    (hlen : s.mates.length = size) (hR : RangeOk size s.mates)
    (hI : Invol size s.mates)
    (ha : a < size) (hb : b < size) (hab : a ≠ b)
    (hn1 : s.mates.getD a 0 ≠ -1) (hn2 : s.mates.getD b 0 ≠ -1)
    (hnc : ¬((a : Int) = s.mates.getD b 0 ∧ (b : Int) = s.mates.getD a 0)) :
    0 ≤ s.mates.getD a 0 ∧ s.mates.getD a 0 < (size : Int) ∧
    0 ≤ s.mates.getD b 0 ∧ s.mates.getD b 0 < (size : Int) ∧
    s.mates.getD (s.mates.getD a 0).toNat 0 = (a : Int) ∧
    s.mates.getD (s.mates.getD b 0).toNat 0 = (b : Int) ∧
    s.mates.getD b 0 ≠ (a : Int) ∧ s.mates.getD a 0 ≠ (b : Int) ∧
    s.mates.getD a 0 ≠ s.mates.getD b 0 := by
  have he1 : 0 ≤ s.mates.getD a 0 ∧ s.mates.getD a 0 < (size : Int) := by
    rcases hR a ha with h | h
    · exact absurd h hn1
    · exact h
  have he2 : 0 ≤ s.mates.getD b 0 ∧ s.mates.getD b 0 < (size : Int) := by
    rcases hR b hb with h | h
    · exact absurd h hn2
    · exact h
  have hi1 : s.mates.getD (s.mates.getD a 0).toNat 0 = (a : Int) :=
    hI a ha he1.1
  have hi2 : s.mates.getD (s.mates.getD b 0).toNat 0 = (b : Int) :=
    hI b hb he2.1
  refine ⟨he1.1, he1.2, he2.1, he2.2, hi1, hi2, ?_, ?_, ?_⟩
  · intro hc
    apply hnc
    refine ⟨hc.symm, ?_⟩
    have : (s.mates.getD b 0).toNat = a := by omega
    rw [← hi2, this]
  · intro hc
    apply hnc
    have hEb : (s.mates.getD a 0).toNat = b := by omega
    refine ⟨?_, hc.symm⟩
    rw [← hi1, hEb]
  · intro hc
    have : (s.mates.getD a 0).toNat = (s.mates.getD b 0).toNat := by omega
    rw [this, hi2] at hi1
    exact hab (by omega)

/-- Any `UniteMates` call between two distinct valid keys — successful or
failed — preserves the invariant bundle. -/
theorem UniteMates_preserves_good (table : List Int) (size : Nat) (s : St)
    (a b : Nat) (hG : GoodM size s.mates)
    (ha : a < size) (hb : b < size) (hab : a ≠ b) :
    GoodM size (UniteMates table s a b).2.mates := by
  obtain ⟨hlen, hR, hI⟩ := hG
  by_cases he : (s.mates.getD a 0 = -1 ∨ s.mates.getD b 0 = -1) ∨
      ((a : Int) = s.mates.getD b 0 ∧ (b : Int) = s.mates.getD a 0)
  · rw [UniteMates_eq_of_early table s a b he]
    exact ⟨hlen, hR, hI⟩
  · rw [UniteMates_snd_of_not_early table s a b he]
    have hn1 : s.mates.getD a 0 ≠ -1 := fun h => he (Or.inl (Or.inl h))
    have hn2 : s.mates.getD b 0 ≠ -1 := fun h => he (Or.inl (Or.inr h))
    have hnc : ¬((a : Int) = s.mates.getD b 0 ∧
        (b : Int) = s.mates.getD a 0) := fun h => he (Or.inr h)
    obtain ⟨hp1, hq1, hp2, hq2, hi1, hi2, hx1, hx2, hx3⟩ :=
      ends_facts size s a b hlen hR hI ha hb hab hn1 hn2 hnc
    have hE1 : (s.mates.getD a 0).toNat < s.mates.length := by omega
    have hE2 : (s.mates.getD b 0).toNat < s.mates.length := by omega
    have hfw : ∀ j : Nat, (FourWrites s a b).mates.getD j 0 =
        if j = (s.mates.getD b 0).toNat then s.mates.getD a 0
        else if j = (s.mates.getD a 0).toNat then s.mates.getD b 0
        else if j = b then -1
        else if j = a then -1
        else s.mates.getD j 0 := fun j =>
      FourWrites_getD s a b j (by omega) (by omega) hE1 hE2
    have hflen : (FourWrites s a b).mates.length = size := by
      rw [FourWrites_length]; exact hlen
    have hE12 : (s.mates.getD a 0).toNat ≠ (s.mates.getD b 0).toNat := by
      omega
    refine ⟨hflen, ?_, ?_⟩
    · intro c hc
      rw [hfw c]
      split
      · right; exact ⟨hp1, hq1⟩
      · split
        · right; exact ⟨hp2, hq2⟩
        · split
          · left; rfl
          · split
            · left; rfl
            · exact hR c hc
    · intro c hc hnn
      rw [hfw c] at hnn ⊢
      by_cases hcE2 : c = (s.mates.getD b 0).toNat
      · rw [if_pos hcE2] at hnn ⊢
        rw [hfw]
        rw [if_neg hE12, if_pos rfl]
        subst hcE2
        omega
      · rw [if_neg hcE2] at hnn ⊢
        by_cases hcE1 : c = (s.mates.getD a 0).toNat
        · rw [if_pos hcE1] at hnn ⊢
          rw [hfw, if_pos rfl]
          subst hcE1
          omega
        · rw [if_neg hcE1] at hnn ⊢
          by_cases hcb : c = b
          · rw [if_pos hcb] at hnn
            omega
          · rw [if_neg hcb] at hnn ⊢
            by_cases hca : c = a
            · rw [if_pos hca] at hnn
              omega
            · rw [if_neg hca] at hnn ⊢
              -- untouched cell: its mate is untouched as well
              have hmc : s.mates.getD (s.mates.getD c 0).toNat 0 = (c : Int) :=
                hI c hc hnn
              have hrc : s.mates.getD c 0 < (size : Int) := by
                rcases hR c hc with h | h
                · omega
                · exact h.2
              rw [hfw]
              have hd2 : (s.mates.getD c 0).toNat ≠ (s.mates.getD b 0).toNat := by
                intro hcc
                rw [hcc, hi2] at hmc
                exact hcb (by omega)
              have hd1 : (s.mates.getD c 0).toNat ≠ (s.mates.getD a 0).toNat := by
                intro hcc
                rw [hcc, hi1] at hmc
                exact hca (by omega)
              have hdb : (s.mates.getD c 0).toNat ≠ b := by
                intro hcc
                rw [hcc] at hmc
                exact hcE2 (by omega)
              have hda : (s.mates.getD c 0).toNat ≠ a := by
                intro hcc
                rw [hcc] at hmc
                exact hcE1 (by omega)
              rw [if_neg hd2, if_neg hd1, if_neg hdb, if_neg hda]
              exact hmc

/-- Reading the freshly initialized mates table. -/
theorem initSt_getD (B : Board) (c : Nat) :
    B.initSt.mates.getD c 0 = if c < B.size then (c : Int) else 0 := by
  unfold Board.initSt
  rw [List.getD_eq_getElem?_getD, List.getElem?_map]
  by_cases hc : c < B.size
  · rw [List.getElem?_range hc, if_pos hc]
    rfl
  · rw [List.getElem?_eq_none (by simpa using le_of_not_lt hc), if_neg hc]
    rfl

theorem initSt_good (B : Board) : GoodM B.size B.initSt.mates := by
  refine ⟨by simp [Board.initSt], ?_, ?_⟩
  · intro c hc
    rw [initSt_getD B c, if_pos hc]
    right
    constructor <;> omega
  · intro c hc _
    rw [initSt_getD B c, if_pos hc]
    have : ((c : Int)).toNat = c := by omega
    rw [this, initSt_getD B c, if_pos hc]

/-- The connectivity states reachable during the search: the initialized
state, any successful or failed `tryConnect` (`UniteMates`) call between
two distinct valid cell keys (which is how the search always calls it),
and any rollback to the checkpoint of a previously visited state. -/
inductive Reachable (B : Board) : St → Prop
  | init : Reachable B B.initSt
  | unite (s : St) (a b : Nat) (ha : a < B.size) (hb : b < B.size)
      (hab : a ≠ b) (h : Reachable B s) :
      Reachable B (UniteMates B.table s a b).2
  | rollback (s t : St) (hs : Reachable B s) (ht : Reachable B t)
      (he : Evol s t) : Reachable B (RevertMates t s.stack.length)

theorem reachable_good (B : Board) (s : St) (h : Reachable B s) :
    GoodM B.size s.mates := by
  induction h with
  | init => exact initSt_good B
  | unite s a b ha hb hab _ ih =>
    exact UniteMates_preserves_good B.table B.size s a b ih ha hb hab
  | rollback s t _ _ he ihs _ =>
    rw [he.revert_exact]
    exact ihs

/-- C6. Symmetry invariant: in every connectivity state reachable during
the search (after initialization, any sequence of successful or failed
`tryConnect` calls, and any rollbacks to checkpoints), every cell key `c`
whose mates entry is a normal key — not the closed sentinel -1 — satisfies
`mates[mates[c]] = c`. -/
theorem mates_symmetry_invariant (B : Board) (s : St) (h : Reachable B s) :
    ∀ c, c < B.size → s.mates.getD c 0 ≠ -1 →
      s.mates.getD (s.mates.getD c 0).toNat 0 = (c : Int) := by
  obtain ⟨_, hR, hI⟩ := reachable_good B s h
  intro c hc hnc
  apply hI c hc
  rcases hR c hc with h | h
  · exact absurd h hnc
  · exact h.1

/-- C6 witness board: a 1-by-2 strip labelled `1 1`. -/
def Bw : Board := ⟨2, 1, [1, 1]⟩

/-- C6 witness state: the initialized strip after one successful merge of
its two cells. -/
def sW : St := (UniteMates Bw.table Bw.initSt 1 0).2

theorem mates_symmetry_invariant_witness :
    sW.mates.getD (sW.mates.getD 0 0).toNat 0 = (0 : Int) :=
  mates_symmetry_invariant Bw sW
    (Reachable.unite Bw.initSt 1 0 (by decide) (by decide) (by decide)
      Reachable.init)
    0 (by decide) (by decide)

/-- C2. Characterization of `tryConnect` failure, in any well-formed state
(the invariant bundle holds for every state of the search, see
`reachable_good`) and for distinct valid cell keys `a`, `b` (the only way
the search calls it): `UniteMates` returns `false` exactly when
(i) an end is already closed, or (ii) `a` and `b` are the two free ends of
one existing chain (cycle), or (iii) a labeled cell is receiving a second
edge (its mates value was already non-self before the call), or (iv) the
two resulting chain ends carry different non-zero labels; and when it
returns `true` it has performed exactly the four writes that mark `a` and
`b` closed and re-link their former far ends to each other. -/
theorem tryConnect_false_iff (table : List Int) (size : Nat) (s : St)
    (a b : Nat) (hG : GoodM size s.mates)
    (ha : a < size) (hb : b < size) (hab : a ≠ b) :
    ((UniteMates table s a b).1 = false ↔
      ((s.mates.getD a 0 = -1 ∨ s.mates.getD b 0 = -1) ∨
       (s.mates.getD a 0 = (b : Int) ∧ s.mates.getD b 0 = (a : Int)) ∨
       ((0 < table.getD a 0 ∧ s.mates.getD a 0 ≠ (a : Int)) ∨
        (0 < table.getD b 0 ∧ s.mates.getD b 0 ≠ (b : Int))) ∨
       (0 < table.getD (s.mates.getD a 0).toNat 0 ∧
        0 < table.getD (s.mates.getD b 0).toNat 0 ∧
        table.getD (s.mates.getD a 0).toNat 0 ≠
          table.getD (s.mates.getD b 0).toNat 0)))
    ∧ ((UniteMates table s a b).1 = true →
        (UniteMates table s a b).2 = FourWrites s a b) := by
  obtain ⟨hlen, hR, hI⟩ := hG
  by_cases he : (s.mates.getD a 0 = -1 ∨ s.mates.getD b 0 = -1) ∨
      ((a : Int) = s.mates.getD b 0 ∧ (b : Int) = s.mates.getD a 0)
  · rw [UniteMates_eq_of_early table s a b he]
    constructor
    · refine iff_of_true rfl ?_
      rcases he with h | h
      · exact Or.inl h
      · exact Or.inr (Or.inl ⟨h.2.symm, h.1.symm⟩)
    · intro h
      exact absurd h (by simp)
  · have hn1 : s.mates.getD a 0 ≠ -1 := fun h => he (Or.inl (Or.inl h))
    have hn2 : s.mates.getD b 0 ≠ -1 := fun h => he (Or.inl (Or.inr h))
    have hnc : ¬((a : Int) = s.mates.getD b 0 ∧
        (b : Int) = s.mates.getD a 0) := fun h => he (Or.inr h)
    obtain ⟨hp1, hq1, hp2, hq2, hi1, hi2, hx1, hx2, hx3⟩ :=
      ends_facts size s a b hlen hR hI ha hb hab hn1 hn2 hnc
    have hfw : ∀ j : Nat, (FourWrites s a b).mates.getD j 0 =
        if j = (s.mates.getD b 0).toNat then s.mates.getD a 0
        else if j = (s.mates.getD a 0).toNat then s.mates.getD b 0
        else if j = b then -1
        else if j = a then -1
        else s.mates.getD j 0 := fun j =>
      FourWrites_getD s a b j (by omega) (by omega) (by omega) (by omega)
    have hfa : (FourWrites s a b).mates.getD a 0 =
        if s.mates.getD a 0 = (a : Int) then s.mates.getD b 0 else -1 := by
      rw [hfw a, if_neg (show ¬a = (s.mates.getD b 0).toNat by omega)]
      by_cases h1 : s.mates.getD a 0 = (a : Int)
      · rw [if_pos (show a = (s.mates.getD a 0).toNat by omega), if_pos h1]
      · rw [if_neg (show ¬a = (s.mates.getD a 0).toNat by omega),
          if_neg hab, if_pos rfl, if_neg h1]
    have hfb : (FourWrites s a b).mates.getD b 0 =
        if s.mates.getD b 0 = (b : Int) then s.mates.getD a 0 else -1 := by
      rw [hfw b]
      by_cases h2 : s.mates.getD b 0 = (b : Int)
      · rw [if_pos (show b = (s.mates.getD b 0).toNat by omega), if_pos h2]
      · rw [if_neg (show ¬b = (s.mates.getD b 0).toNat by omega),
          if_neg (show ¬b = (s.mates.getD a 0).toNat by omega),
          if_pos rfl, if_neg h2]
    have hsnd := UniteMates_snd_of_not_early table s a b he
    have hni : ¬(s.mates.getD a 0 = -1 ∨ s.mates.getD b 0 = -1) :=
      fun hc => he (Or.inl hc)
    have hnii : ¬(s.mates.getD a 0 = (b : Int) ∧
        s.mates.getD b 0 = (a : Int)) :=
      fun hc => hnc ⟨hc.2.symm, hc.1.symm⟩
    have hstruct : (UniteMates table s a b).1 = false ↔
        ((FourWrites s a b).mates.getD a 0 = -1 ∧ 0 < table.getD a 0) ∨
        ((FourWrites s a b).mates.getD b 0 = -1 ∧ 0 < table.getD b 0) ∨
        (0 < table.getD (s.mates.getD a 0).toNat 0 ∧
         0 < table.getD (s.mates.getD b 0).toNat 0 ∧
         table.getD (s.mates.getD a 0).toNat 0 ≠
           table.getD (s.mates.getD b 0).toNat 0) := by
      unfold UniteMates
      rw [if_neg (fun hc => he (Or.inl hc)), if_neg (fun hc => he (Or.inr hc))]
      split
      · next hc => exact iff_of_true rfl (Or.inl hc)
      · next hc =>
        split
        · next hc2 => exact iff_of_true rfl (Or.inr (Or.inl hc2))
        · next hc2 =>
          split
          · next hc3 => exact iff_of_true rfl (Or.inr (Or.inr hc3))
          · next hc3 =>
            refine iff_of_false (by simp) ?_
            rintro (h | h | h)
            · exact hc h
            · exact hc2 h
            · exact hc3 h
    have hC1 : ((FourWrites s a b).mates.getD a 0 = -1 ∧
        0 < table.getD a 0) ↔
        (0 < table.getD a 0 ∧ s.mates.getD a 0 ≠ (a : Int)) := by
      rw [hfa]
      by_cases h1 : s.mates.getD a 0 = (a : Int)
      · rw [if_pos h1]
        constructor
        · rintro ⟨hv, _⟩
          exact absurd hv hn2
        · rintro ⟨_, hv⟩
          exact absurd h1 hv
      · rw [if_neg h1]
        constructor
        · rintro ⟨_, hp⟩
          exact ⟨hp, h1⟩
        · rintro ⟨hp, _⟩
          exact ⟨rfl, hp⟩
    have hC2 : ((FourWrites s a b).mates.getD b 0 = -1 ∧
        0 < table.getD b 0) ↔
        (0 < table.getD b 0 ∧ s.mates.getD b 0 ≠ (b : Int)) := by
      rw [hfb]
      by_cases h2 : s.mates.getD b 0 = (b : Int)
      · rw [if_pos h2]
        constructor
        · rintro ⟨hv, _⟩
          exact absurd hv hn1
        · rintro ⟨_, hv⟩
          exact absurd h2 hv
      · rw [if_neg h2]
        constructor
        · rintro ⟨_, hp⟩
          exact ⟨hp, h2⟩
        · rintro ⟨hp, _⟩
          exact ⟨rfl, hp⟩
    constructor
    · rw [hstruct, hC1, hC2]
      constructor
      · rintro (h | h | h)
        · exact Or.inr (Or.inr (Or.inl (Or.inl h)))
        · exact Or.inr (Or.inr (Or.inl (Or.inr h)))
        · exact Or.inr (Or.inr (Or.inr h))
      · rintro (h | h | h | h)
        · exact absurd h hni
        · exact absurd h hnii
        · rcases h with h | h
          · exact Or.inl h
          · exact Or.inr (Or.inl h)
        · exact Or.inr (Or.inr h)
    · intro _
      exact hsnd

/-- C2 witness: on the 1-by-2 strip labelled `1 1`, connecting the two
fresh cells is legal — none of the four failure conditions holds — and the
call performs exactly the four writes. -/
theorem tryConnect_false_iff_witness :
    ((UniteMates Bw.table Bw.initSt 1 0).1 = false ↔
      ((Bw.initSt.mates.getD 1 0 = -1 ∨ Bw.initSt.mates.getD 0 0 = -1) ∨
       (Bw.initSt.mates.getD 1 0 = (0 : Int) ∧
        Bw.initSt.mates.getD 0 0 = (1 : Int)) ∨
       ((0 < Bw.table.getD 1 0 ∧ Bw.initSt.mates.getD 1 0 ≠ (1 : Int)) ∨
        (0 < Bw.table.getD 0 0 ∧ Bw.initSt.mates.getD 0 0 ≠ (0 : Int))) ∨
       (0 < Bw.table.getD (Bw.initSt.mates.getD 1 0).toNat 0 ∧
        0 < Bw.table.getD (Bw.initSt.mates.getD 0 0).toNat 0 ∧
        Bw.table.getD (Bw.initSt.mates.getD 1 0).toNat 0 ≠
          Bw.table.getD (Bw.initSt.mates.getD 0 0).toNat 0)))
    ∧ ((UniteMates Bw.table Bw.initSt 1 0).1 = true →
        (UniteMates Bw.table Bw.initSt 1 0).2 = FourWrites Bw.initSt 1 0) :=
  tryConnect_false_iff Bw.table Bw.size Bw.initSt 1 0 (initSt_good Bw)
    (by decide) (by decide) (by decide)

/-! ## The anti-diagonal traversal order -/

/-- The anti-diagonal order on coordinates: earlier diagonal first
(`d = x + y`), and within one diagonal larger `x` first. -/
def cellLt (p q : Int × Int) : Prop :=
  p.1 + p.2 < q.1 + q.2 ∨ (p.1 + p.2 = q.1 + q.2 ∧ q.1 < p.1)

instance (p q : Int × Int) : Decidable (cellLt p q) :=
  inferInstanceAs (Decidable (_ ∨ _ ∧ _))

/-- Propositional form of `Board.inb`. -/
def Board.inbP (B : Board) (p : Int × Int) : Prop :=
  0 ≤ p.1 ∧ p.1 < (B.width : Int) ∧ 0 ≤ p.2 ∧ p.2 < (B.height : Int)

theorem inb_iff (B : Board) (p : Int × Int) : B.inb p = true ↔ B.inbP p := by
  unfold Board.inb Board.inbP
  simp [and_assoc]

theorem stepCell_eq (x y : Int) :
    stepCell (x, y) = if x - 1 < 0 then (y + 1, 0) else (x - 1, y + 1) := rfl

theorem inbP_mk (B : Board) (x y : Int) :
    B.inbP (x, y) ↔
      0 ≤ x ∧ x < (B.width : Int) ∧ 0 ≤ y ∧ y < (B.height : Int) := Iff.rfl

theorem nextCell_zero (B : Board) (p : Int × Int) :
    B.nextCell 0 p = stepCell p := rfl

theorem nextCell_succ (B : Board) (n : Nat) (p : Int × Int) :
    B.nextCell (n + 1) p =
      if B.inb (stepCell p) = true then stepCell p
      else B.nextCell n (stepCell p) := rfl

/-- The bottom-right corner, the last cell of the traversal. -/
def Board.maxCell (B : Board) : Int × Int :=
  ((B.width : Int) - 1, (B.height : Int) - 1)

/-- The successor of an in-bounds, non-final cell in the anti-diagonal
order: one step down-left inside the diagonal, or the top cell of the next
diagonal. -/
def succCell (B : Board) (p : Int × Int) : Int × Int :=
  if 0 < p.1 ∧ p.2 + 1 < (B.height : Int) then (p.1 - 1, p.2 + 1)
  else (min (p.1 + p.2 + 1) ((B.width : Int) - 1),
    p.1 + p.2 + 1 - min (p.1 + p.2 + 1) ((B.width : Int) - 1))

theorem succCell_mk (B : Board) (x y : Int) :
    succCell B (x, y) =
      if 0 < x ∧ y + 1 < (B.height : Int) then (x - 1, y + 1)
      else (min (x + y + 1) ((B.width : Int) - 1),
        x + y + 1 - min (x + y + 1) ((B.width : Int) - 1)) := rfl

/-- Walking down a diagonal that starts right of the board lands on its
topmost in-bounds cell. -/
theorem nextCell_right (B : Board) (hw : 0 < B.width) :
    ∀ (fuel : Nat) (x y : Int), (B.width : Int) ≤ x → 0 ≤ y →
    x + y ≤ (B.width : Int) + (B.height : Int) - 2 →
    x - (B.width : Int) ≤ (fuel : Int) →
    B.nextCell fuel (x, y) =
      ((B.width : Int) - 1, x + y - ((B.width : Int) - 1)) := by
  intro fuel
  induction fuel with
  | zero =>
    intro x y hx hy hd hf
    have hxw : x = (B.width : Int) := by omega
    rw [nextCell_zero, stepCell_eq, if_neg (by omega)]
    rw [Prod.mk.injEq]
    constructor <;> omega
  | succ fuel ih =>
    intro x y hx hy hd hf
    have hq : stepCell (x, y) = (x - 1, y + 1) := by
      rw [stepCell_eq, if_neg (by omega)]
    rw [nextCell_succ, hq]
    by_cases hxw : x = (B.width : Int)
    · rw [if_pos ((inb_iff B _).mpr ((inbP_mk B _ _).mpr (by omega)))]
      rw [Prod.mk.injEq]
      constructor <;> omega
    · rw [if_neg (fun hc => by
        have := (inbP_mk B _ _).mp ((inb_iff B _).mp hc)
        omega)]
      rw [ih (x - 1) (y + 1) (by omega) (by omega) (by omega) (by omega)]
      rw [Prod.mk.injEq]
      constructor <;> omega

/-- Walking off the bottom of a diagonal reaches the top in-bounds cell of
the next diagonal. -/
theorem nextCell_below (B : Board) (hw : 0 < B.width) (hh : 0 < B.height) :
    ∀ (fuel : Nat) (x y : Int), 0 ≤ x → (B.height : Int) ≤ y →
    x + y + 1 ≤ (B.width : Int) + (B.height : Int) - 2 →
    x ≤ (fuel : Int) →
    2 * x + y + 2 ≤ (B.width : Int) + (fuel : Int) →
    B.nextCell fuel (x, y) =
      (min (x + y + 1) ((B.width : Int) - 1),
        x + y + 1 - min (x + y + 1) ((B.width : Int) - 1)) := by
  intro fuel
  induction fuel with
  | zero =>
    intro x y hx hy hd hxf hf
    have hx0 : x = 0 := by omega
    rw [nextCell_zero, stepCell_eq, if_pos (by omega)]
    rw [Prod.mk.injEq]
    constructor <;> omega
  | succ fuel ih =>
    intro x y hx hy hd hxf hf
    by_cases hx0 : x = 0
    · subst hx0
      have hq : stepCell (0, y) = (y + 1, 0) := by
        rw [stepCell_eq, if_pos (by omega)]
      rw [nextCell_succ, hq]
      by_cases hyw : y + 1 < (B.width : Int)
      · rw [if_pos ((inb_iff B _).mpr ((inbP_mk B _ _).mpr (by omega)))]
        rw [Prod.mk.injEq]
        constructor <;> omega
      · rw [if_neg (fun hc => by
          have := (inbP_mk B _ _).mp ((inb_iff B _).mp hc)
          omega)]
        rw [nextCell_right B hw fuel (y + 1) 0 (by omega) (by omega)
          (by omega) (by omega)]
        rw [Prod.mk.injEq]
        constructor <;> omega
    · have hq : stepCell (x, y) = (x - 1, y + 1) := by
        rw [stepCell_eq, if_neg (by omega)]
      rw [nextCell_succ, hq]
      rw [if_neg (fun hc => by
        have := (inbP_mk B _ _).mp ((inb_iff B _).mp hc)
        omega)]
      rw [ih (x - 1) (y + 1) (by omega) (by omega) (by omega) (by omega)
        (by omega)]
      rw [Prod.mk.injEq]
      constructor <;> omega

/-- The generation loop of `Initialize` advances from any in-bounds cell
other than the bottom-right corner to exactly its anti-diagonal
successor. -/
theorem nextCell_eq_succ (B : Board) (hw : 0 < B.width) (hh : 0 < B.height)
    (p : Int × Int) (hp : B.inbP p) (hmax : p ≠ B.maxCell) :
    B.nextCell B.stepFuel p = succCell B p := by
  rcases p with ⟨x, y⟩
  have hp' : 0 ≤ x ∧ x < (B.width : Int) ∧ 0 ≤ y ∧ y < (B.height : Int) := hp
  have hmax' : ¬(x = (B.width : Int) - 1 ∧ y = (B.height : Int) - 1) := by
    intro hc
    exact hmax (by unfold Board.maxCell; rw [hc.1, hc.2])
  have hp2 : 0 ≤ x ∧ x < (B.width : Int) ∧ 0 ≤ y ∧ y < (B.height : Int) :=
    (inbP_mk B x y).mp hp
  unfold Board.stepFuel
  have hfuel : B.width + B.height + 2 = (B.width + B.height + 1) + 1 := rfl
  rw [hfuel]
  by_cases hx : 0 < x
  · have hq : stepCell (x, y) = (x - 1, y + 1) := by
      rw [stepCell_eq, if_neg (by omega)]
    rw [nextCell_succ, hq]
    by_cases hy : y + 1 < (B.height : Int)
    · rw [if_pos ((inb_iff B _).mpr ((inbP_mk B _ _).mpr (by omega)))]
      rw [succCell_mk, if_pos ⟨hx, hy⟩]
    · rw [if_neg (fun hc => by
        have := (inbP_mk B _ _).mp ((inb_iff B _).mp hc)
        omega)]
      rw [nextCell_below B hw hh (B.width + B.height + 1) (x - 1) (y + 1)
        (by omega) (by omega) (by omega) (by push_cast; omega)
        (by push_cast; omega)]
      rw [succCell_mk, if_neg (by omega)]
      rw [Prod.mk.injEq]
      constructor <;> omega
  · have hq : stepCell (x, y) = (y + 1, 0) := by
      rw [stepCell_eq, if_pos (by omega)]
    rw [nextCell_succ, hq]
    by_cases hyw : y + 1 < (B.width : Int)
    · rw [if_pos ((inb_iff B _).mpr ((inbP_mk B _ _).mpr (by omega)))]
      rw [succCell_mk, if_neg (by omega)]
      rw [Prod.mk.injEq]
      constructor <;> omega
    · rw [if_neg (fun hc => by
        have := (inbP_mk B _ _).mp ((inb_iff B _).mp hc)
        omega)]
      rw [nextCell_right B hw (B.width + B.height + 1) (y + 1) 0
        (by omega) (by omega) (by omega) (by push_cast; omega)]
      rw [succCell_mk, if_neg (by omega)]
      rw [Prod.mk.injEq]
      constructor <;> omega

theorem cellLt_mk (a b c d : Int) :
    cellLt (a, b) (c, d) ↔
      a + b < c + d ∨ (a + b = c + d ∧ c < a) := Iff.rfl

theorem cellLt_irrefl (p : Int × Int) : ¬cellLt p p := by
  rcases p with ⟨a, b⟩
  rw [cellLt_mk]
  omega

theorem cellLt_trans {p q r : Int × Int} (h1 : cellLt p q) (h2 : cellLt q r) :
    cellLt p r := by
  rcases p with ⟨a, b⟩
  rcases q with ⟨c, d⟩
  rcases r with ⟨e, f⟩
  rw [cellLt_mk] at h1 h2 ⊢
  omega

theorem cellLt_tri {p q : Int × Int} (hne : p ≠ q) :
    cellLt p q ∨ cellLt q p := by
  rcases p with ⟨a, b⟩
  rcases q with ⟨c, d⟩
  have : ¬(a = c ∧ b = d) := fun hc => hne (by rw [hc.1, hc.2])
  rw [cellLt_mk, cellLt_mk]
  omega

theorem succCell_inbP (B : Board) (hw : 0 < B.width) (hh : 0 < B.height)
    (p : Int × Int) (hp : B.inbP p) (hmax : p ≠ B.maxCell) :
    B.inbP (succCell B p) := by
  rcases p with ⟨x, y⟩
  rw [inbP_mk] at hp
  have hmax' : ¬(x = (B.width : Int) - 1 ∧ y = (B.height : Int) - 1) := by
    intro hc
    exact hmax (by unfold Board.maxCell; rw [hc.1, hc.2])
  rw [succCell_mk]
  split
  · rw [inbP_mk]
    omega
  · rw [inbP_mk]
    constructor
    · omega
    · next hcond => omega

theorem succCell_cellLt (B : Board) (p : Int × Int) (hp : B.inbP p) :
    cellLt p (succCell B p) := by
  rcases p with ⟨x, y⟩
  rw [inbP_mk] at hp
  rw [succCell_mk]
  split
  · rw [cellLt_mk]
    omega
  · rw [cellLt_mk]
    omega

theorem succCell_imm (B : Board) (p : Int × Int) (hp : B.inbP p)
    (q : Int × Int) (hq : B.inbP q) (h1 : cellLt p q) :
    ¬cellLt q (succCell B p) := by
  rcases p with ⟨x, y⟩
  rcases q with ⟨a, b⟩
  rw [inbP_mk] at hp hq
  rw [cellLt_mk] at h1
  rw [succCell_mk]
  split
  · rw [cellLt_mk]
    omega
  · rw [cellLt_mk]
    next hcond => omega

/-- The set of all in-bounds coordinates. -/
def cellFinset (B : Board) : Finset (Int × Int) :=
  (Finset.Icc (0 : Int) ((B.width : Int) - 1)) ×ˢ
    (Finset.Icc (0 : Int) ((B.height : Int) - 1))

theorem mem_cellFinset (B : Board) (p : Int × Int) :
    p ∈ cellFinset B ↔ B.inbP p := by
  rcases p with ⟨a, b⟩
  unfold cellFinset
  rw [Finset.mem_product]
  rw [Finset.mem_Icc, Finset.mem_Icc, inbP_mk]
  omega

theorem cellFinset_card (B : Board) : (cellFinset B).card = B.size := by
  unfold cellFinset Board.size
  rw [Finset.card_product, Int.card_Icc, Int.card_Icc]
  have h1 : ((B.width : Int) - 1 + 1 - 0).toNat = B.width := by omega
  have h2 : ((B.height : Int) - 1 + 1 - 0).toNat = B.height := by omega
  rw [h1, h2]

/-- The rank of a coordinate in the anti-diagonal order: the number of
in-bounds cells strictly before it. -/
def rankCell (B : Board) (p : Int × Int) : Nat :=
  ((cellFinset B).filter (fun q => cellLt q p)).card

theorem rankCell_zero (B : Board) : rankCell B (0, 0) = 0 := by
  unfold rankCell
  rw [Finset.card_eq_zero, Finset.filter_eq_empty_iff]
  intro q hq
  rcases q with ⟨a, b⟩
  have hmem := (mem_cellFinset B (a, b)).mp hq
  rw [inbP_mk] at hmem
  rw [cellLt_mk]
  omega

theorem rankCell_lt (B : Board) (p q : Int × Int) (hp : B.inbP p)
    (hq : B.inbP q) (h : cellLt p q) : rankCell B p < rankCell B q := by
  have hsub : (cellFinset B).filter (fun r => cellLt r p) ⊆
      (cellFinset B).filter (fun r => cellLt r q) := by
    intro r hr
    rw [Finset.mem_filter] at hr ⊢
    exact ⟨hr.1, cellLt_trans hr.2 h⟩
  have hmem : p ∈ (cellFinset B).filter (fun r => cellLt r q) :=
    Finset.mem_filter.mpr ⟨(mem_cellFinset B p).mpr hp, h⟩
  have hnot : p ∉ (cellFinset B).filter (fun r => cellLt r p) :=
    fun hc => cellLt_irrefl p (Finset.mem_filter.mp hc).2
  exact Finset.card_lt_card
    ((Finset.ssubset_iff_of_subset hsub).mpr ⟨p, hmem, hnot⟩)

theorem rankCell_succ (B : Board) (hw : 0 < B.width) (hh : 0 < B.height)
    (p : Int × Int) (hp : B.inbP p) (hmax : p ≠ B.maxCell) :
    rankCell B (succCell B p) = rankCell B p + 1 := by
  unfold rankCell
  have hins : (cellFinset B).filter (fun q => cellLt q (succCell B p)) =
      insert p ((cellFinset B).filter (fun q => cellLt q p)) := by
    ext q
    rw [Finset.mem_insert, Finset.mem_filter, Finset.mem_filter]
    constructor
    · rintro ⟨hqmem, hqlt⟩
      by_cases hqp : q = p
      · exact Or.inl hqp
      · rcases cellLt_tri hqp with h | h
        · exact Or.inr ⟨hqmem, h⟩
        · exact absurd hqlt
            (succCell_imm B p hp q ((mem_cellFinset B q).mp hqmem) h)
    · rintro (rfl | ⟨hqmem, hqlt⟩)
      · exact ⟨(mem_cellFinset B q).mpr hp, succCell_cellLt B q hp⟩
      · exact ⟨hqmem, cellLt_trans hqlt (succCell_cellLt B p hp)⟩
  rw [hins]
  apply Finset.card_insert_of_not_mem
  intro hc
  exact cellLt_irrefl p (Finset.mem_filter.mp hc).2

theorem rankCell_max (B : Board) (hw : 0 < B.width) (hh : 0 < B.height) :
    rankCell B B.maxCell = B.size - 1 := by
  unfold rankCell
  have hset : (cellFinset B).filter (fun q => cellLt q B.maxCell) =
      (cellFinset B).erase B.maxCell := by
    ext q
    rw [Finset.mem_filter, Finset.mem_erase]
    constructor
    · rintro ⟨hm, hlt⟩
      exact ⟨fun hc => cellLt_irrefl _ (hc ▸ hlt), hm⟩
    · rintro ⟨hne, hm⟩
      refine ⟨hm, ?_⟩
      rcases cellLt_tri hne with h | h
      · exact h
      · exfalso
        rcases q with ⟨a, b⟩
        have hmem := (mem_cellFinset B (a, b)).mp hm
        rw [inbP_mk] at hmem
        unfold Board.maxCell at h
        rw [cellLt_mk] at h
        omega
  rw [hset, Finset.card_erase_of_mem ((mem_cellFinset B _).mpr
    (by unfold Board.maxCell; rw [inbP_mk]; omega)), cellFinset_card]

/-- Every key below `size` is assigned an in-bounds coordinate, and the
traversal order assigns rank `k` to the `k`-th visited cell. -/
theorem keyToCell_spec (B : Board) (hw : 0 < B.width) (hh : 0 < B.height) :
    ∀ k, k < B.size → B.inbP (B.keyToCell k) ∧
      rankCell B (B.keyToCell k) = k := by
  intro k
  induction k with
  | zero =>
    intro _
    refine ⟨?_, rankCell_zero B⟩
    show B.inbP (0, 0)
    rw [inbP_mk]
    omega
  | succ k ih =>
    intro hk
    obtain ⟨hin, hrk⟩ := ih (by omega)
    have hmax : B.keyToCell k ≠ B.maxCell := by
      intro hc
      rw [hc, rankCell_max B hw hh] at hrk
      have hpos : 0 < B.size := Nat.lt_of_le_of_lt (Nat.zero_le _) hk
      omega
    have hstep : B.keyToCell (k + 1) = succCell B (B.keyToCell k) := by
      show B.nextCell B.stepFuel (B.keyToCell k) = _
      exact nextCell_eq_succ B hw hh _ hin hmax
    rw [hstep]
    exact ⟨succCell_inbP B hw hh _ hin hmax,
      by rw [rankCell_succ B hw hh _ hin hmax, hrk]⟩

theorem findIdx_map_range {α : Type} (f : Nat → α) (pr : α → Bool)
    (n k : Nat) (hk : k < n) (hpk : pr (f k) = true)
    (hj : ∀ j, j < k → pr (f j) = false) :
    ((List.range n).map f).findIdx pr = k := by
  have hlen : k < ((List.range n).map f).length := by
    simp [hk]
  rw [List.findIdx_eq hlen]
  constructor
  · simpa using hpk
  · intro j hji
    have hjn : j < n := lt_trans hji hk
    have := hj j hji
    simpa [hjn] using this

/-- The reverse lookup returns the key of a visited cell. -/
theorem key_keyToCell (B : Board) (hw : 0 < B.width) (hh : 0 < B.height)
    (k : Nat) (hk : k < B.size) :
    B.key (B.keyToCell k).1 (B.keyToCell k).2 = k := by
  unfold Board.key Board.cellList
  apply findIdx_map_range B.keyToCell _ B.size k hk
  · simp
  · intro j hj
    obtain ⟨hinj, hrj⟩ := keyToCell_spec B hw hh j (lt_trans hj hk)
    obtain ⟨hink, hrk⟩ := keyToCell_spec B hw hh k hk
    simp only [decide_eq_false_iff_not]
    intro hc
    rw [Prod.mk.eta] at hc
    rw [hc, hrk] at hrj
    omega

/-- The key assigned to an in-bounds coordinate is its rank. -/
theorem key_eq_rank (B : Board) (hw : 0 < B.width) (hh : 0 < B.height)
    (p : Int × Int) (hp : B.inbP p) :
    B.key p.1 p.2 = rankCell B p ∧ rankCell B p < B.size ∧
      B.keyToCell (rankCell B p) = p := by
  have hone : 0 < B.size := Nat.mul_pos hw hh
  have hmaxin : B.inbP B.maxCell := by
    unfold Board.maxCell
    rw [inbP_mk]
    omega
  have hrank : rankCell B p < B.size := by
    by_cases hpm : p = B.maxCell
    · rw [hpm, rankCell_max B hw hh]
      omega
    · rcases cellLt_tri hpm with h | h
      · have := rankCell_lt B p B.maxCell hp hmaxin h
        rw [rankCell_max B hw hh] at this
        omega
      · exfalso
        rcases p with ⟨a, b⟩
        rw [inbP_mk] at hp
        unfold Board.maxCell at h
        rw [cellLt_mk] at h
        omega
  have hc : B.keyToCell (rankCell B p) = p := by
    obtain ⟨hin, hrk⟩ := keyToCell_spec B hw hh (rankCell B p) hrank
    by_contra hne
    rcases cellLt_tri hne with h | h
    · have := rankCell_lt B _ _ hin hp h
      omega
    · have := rankCell_lt B _ _ hp hin h
      omega
  refine ⟨?_, hrank, hc⟩
  have := key_keyToCell B hw hh (rankCell B p) hrank
  rw [hc] at this
  exact this

/-- C7. Anti-diagonal traversal order: for every board with positive
dimensions the key assignment of `Initialize` is a bijection between cell
coordinates and the keys `0 .. width*height - 1`, and
`key (x1,y1) < key (x2,y2)` holds exactly when `x1+y1 < x2+y2`, or
`x1+y1 = x2+y2` and `x1 > x2` (diagonals `d = x+y` in increasing order,
each diagonal from its largest `x` to its smallest). -/
theorem cell_order_bijection (B : Board) (hw : 0 < B.width)
    (hh : 0 < B.height) :
    (∀ k, k < B.size → B.inb (B.keyToCell k) = true ∧
      B.key (B.keyToCell k).1 (B.keyToCell k).2 = k)
    ∧ (∀ x y : Int, B.inb (x, y) = true →
      B.key x y < B.size ∧ B.keyToCell (B.key x y) = (x, y))
    ∧ (∀ x1 y1 x2 y2 : Int, B.inb (x1, y1) = true → B.inb (x2, y2) = true →
      (B.key x1 y1 < B.key x2 y2 ↔
        x1 + y1 < x2 + y2 ∨ (x1 + y1 = x2 + y2 ∧ x2 < x1))) := by
  refine ⟨?_, ?_, ?_⟩
  · intro k hk
    obtain ⟨hin, _⟩ := keyToCell_spec B hw hh k hk
    exact ⟨(inb_iff B _).mpr hin, key_keyToCell B hw hh k hk⟩
  · intro x y hin
    obtain ⟨hkey, hlt, hback⟩ :=
      key_eq_rank B hw hh (x, y) ((inb_iff B _).mp hin)
    have hkey' : B.key x y = rankCell B (x, y) := hkey
    rw [hkey']
    exact ⟨hlt, hback⟩
  · intro x1 y1 x2 y2 h1 h2
    obtain ⟨hkey1, hr1, _⟩ := key_eq_rank B hw hh (x1, y1) ((inb_iff B _).mp h1)
    obtain ⟨hkey2, hr2, _⟩ := key_eq_rank B hw hh (x2, y2) ((inb_iff B _).mp h2)
    have hkey1' : B.key x1 y1 = rankCell B (x1, y1) := hkey1
    have hkey2' : B.key x2 y2 = rankCell B (x2, y2) := hkey2
    rw [hkey1', hkey2', ← cellLt_mk x1 y1 x2 y2]
    constructor
    · intro h
      by_cases hpq : ((x1 : Int), y1) = ((x2 : Int), y2)
      · rw [hpq] at h
        omega
      · rcases cellLt_tri hpq with hlt | hlt
        · exact hlt
        · have := rankCell_lt B _ _ ((inb_iff B _).mp h2)
            ((inb_iff B _).mp h1) hlt
          omega
    · exact rankCell_lt B _ _ ((inb_iff B _).mp h1) ((inb_iff B _).mp h2)

/-- C7 witness: on the 1-by-2 strip, the comparison characterization holds
for the pair of cells `(1,0)` and `(0,0)`. -/
theorem cell_order_bijection_witness :
    Bw.key 1 0 < Bw.key 0 0 ↔
      (1 : Int) + 0 < 0 + 0 ∨ ((1 : Int) + 0 = 0 + 0 ∧ (0 : Int) < 1) :=
  (cell_order_bijection Bw (by decide) (by decide)).2.2 1 0 0 0
    (by decide) (by decide)

/-! ## The retire check and the memo lookup of `Solve` -/

/-- Unfolding of one fuel step of `SolveAux`. -/
theorem SolveAux_succ (B : Board) (fuel k : Nat) (s : St) (m : Memo) :
    SolveAux B (fuel + 1) k s m =
      if 0 < k ∧ B.retirePass s.mates k = false then (0, s, m)
      else AfterRetire B (SolveAux B fuel) k s m := rfl

/-- Unfolding of the terminal / memoization part of `Solve`. -/
theorem AfterRetire_eq (B : Board) (recur : Nat → St → Memo → Nat × St × Memo)
    (k : Nat) (s : St) (m : Memo) :
    AfterRetire B recur k s m =
      if k = B.size then (1, s, m)
      else
        match m k (GetHash (B.mateTuple s.mates k)) with
        | some v => (v, s, m)
        | none =>
          let r := Connect B recur k s m
          (r.1, r.2.1, (r.2.2).insert k (GetHash (B.mateTuple s.mates k))
            r.1) := rfl

/-- The retire loop cuts the branch exactly when some newly fixed cell is a
blank with a dangling end or a labeled cell with no line. -/
theorem retirePass_false_iff (B : Board) (mates : List Int) (k : Nat) :
    B.retirePass mates k = false ↔
      ∃ hd, B.start (k - 1) ≤ hd ∧ hd < B.start k ∧
        ((B.table.getD hd 0 = 0 ∧ mates.getD hd 0 ≠ -1 ∧
            mates.getD hd 0 ≠ (hd : Int)) ∨
          (B.table.getD hd 0 ≠ 0 ∧ mates.getD hd 0 = (hd : Int))) := by
  unfold Board.retirePass
  rw [List.all_eq_false]
  constructor
  · rintro ⟨hd, hmem, hbad⟩
    rw [List.mem_range'_1] at hmem
    have hbad' := Bool.eq_false_iff.mpr hbad
    refine ⟨hd, hmem.1, by omega, ?_⟩
    by_cases ht : B.table.getD hd 0 = 0
    · rw [if_pos ht, Bool.or_eq_false_iff, decide_eq_false_iff_not,
        decide_eq_false_iff_not] at hbad'
      exact Or.inl ⟨ht, hbad'.1, hbad'.2⟩
    · rw [if_neg ht, Bool.not_eq_false'] at hbad'
      exact Or.inr ⟨ht, of_decide_eq_true hbad'⟩
  · rintro ⟨hd, h1, h2, hbad⟩
    refine ⟨hd, List.mem_range'_1.mpr ⟨h1, by omega⟩, ?_⟩
    rw [Bool.not_eq_true]
    rcases hbad with ⟨ht, hb1, hb2⟩ | ⟨ht, hb⟩
    · rw [if_pos ht, Bool.or_eq_false_iff, decide_eq_false_iff_not,
        decide_eq_false_iff_not]
      exact ⟨hb1, hb2⟩
    · rw [if_neg ht, Bool.not_eq_false']
      exact decide_eq_true hb

/-- C1. Retire check: at every search call with index `k > 0`, every cell
`hd` that just left the frontier (`start (k-1) ≤ hd < start k`) is
validated; the branch returns a count of 0 — with state and memo untouched
— as soon as some such `hd` is a blank cell whose mates entry is neither
itself nor the closed sentinel, or a labeled cell whose mates entry is
itself; otherwise the retire check passes and the search continues with the
terminal / memoization step. -/
theorem retire_check_spec (B : Board) (fuel k : Nat) (s : St) (m : Memo)
    (hk : 0 < k) :
    ((∃ hd, B.start (k - 1) ≤ hd ∧ hd < B.start k ∧
        ((B.table.getD hd 0 = 0 ∧ s.mates.getD hd 0 ≠ -1 ∧
            s.mates.getD hd 0 ≠ (hd : Int)) ∨
          (B.table.getD hd 0 ≠ 0 ∧ s.mates.getD hd 0 = (hd : Int)))) →
      SolveAux B (fuel + 1) k s m = (0, s, m))
    ∧ ((∀ hd, B.start (k - 1) ≤ hd → hd < B.start k →
        ¬((B.table.getD hd 0 = 0 ∧ s.mates.getD hd 0 ≠ -1 ∧
            s.mates.getD hd 0 ≠ (hd : Int)) ∨
          (B.table.getD hd 0 ≠ 0 ∧ s.mates.getD hd 0 = (hd : Int)))) →
      SolveAux B (fuel + 1) k s m =
        AfterRetire B (SolveAux B fuel) k s m) := by
  constructor
  · intro hex
    rw [SolveAux_succ,
      if_pos ⟨hk, (retirePass_false_iff B s.mates k).mpr hex⟩]
  · intro hall
    rw [SolveAux_succ, if_neg]
    rintro ⟨_, hfail⟩
    obtain ⟨hd, h1, h2, hbad⟩ := (retirePass_false_iff B s.mates k).mp hfail
    exact hall hd h1 h2 hbad

/-- C1 witness board: a 1-by-2 strip whose left cell holds the label 1 and
whose right cell is blank. -/
def Bw1 : Board := ⟨2, 1, [1, 0]⟩

/-- C1 witness: at index 2 the labeled cell 0 retires while still being its
own mate (its line never started), so the branch returns 0. -/
theorem retire_check_spec_witness :
    SolveAux Bw1 1 2 Bw1.initSt Memo.empty = (0, Bw1.initSt, Memo.empty) :=
  (retire_check_spec Bw1 0 2 Bw1.initSt Memo.empty (by decide)).1
    ⟨0, by decide, by decide, Or.inr (by decide)⟩

/-- A blank 2-by-2 board. -/
def B22 : Board := ⟨2, 2, [0, 0, 0, 0]⟩

/-- C3 (counterexample part): on a blank 2-by-2 board at index 3, the slice
of mate values the code hashes for the memo key is
`mates[start 3 .. 3) = mates[1 .. 3)`, which differs — and hashes
differently, already in the initialized state — from the slice
`mates[start (3-1) .. 3) = mates[0 .. 3)` that the claim designates. -/
theorem memo_slice_counterexample :
    B22.start 3 = 1 ∧ B22.start (3 - 1) = 0 ∧
    B22.mateTuple B22.initSt.mates 3 ≠
      (B22.initSt.mates.drop (B22.start (3 - 1))).take
        (3 - B22.start (3 - 1)) ∧
    GetHash (B22.mateTuple B22.initSt.mates 3) ≠
      GetHash ((B22.initSt.mates.drop (B22.start (3 - 1))).take
        (3 - B22.start (3 - 1))) := by
  decide

/-- C3 (amended): at every index `k`, the 128-bit fingerprint used as the
memo key is computed over exactly the connectivity-state values of the
cells in `mates[start k .. k)` — the slice beginning at index `k`'s own
look-back boundary `start k`, not at `start (k-1)`: whenever the retire
check passes, the index is not terminal, and the memo table holds a value
for the hash of that exact slice, the search returns that value
unchanged. -/
theorem memo_slice_amended (B : Board) (fuel k : Nat) (s : St) (m : Memo)
    (v : Nat) (hk : 0 < k → B.retirePass s.mates k = true)
    (hks : k ≠ B.size)
    (hm : m k (GetHash ((s.mates.drop (B.start k)).take (k - B.start k))) =
      some v) :
    SolveAux B (fuel + 1) k s m = (v, s, m) := by
  rw [SolveAux_succ, if_neg]
  · rw [AfterRetire_eq, if_neg hks]
    have hm' : m k (GetHash (B.mateTuple s.mates k)) = some v := hm
    rw [hm']
  · rintro ⟨hk0, hfail⟩
    rw [hk hk0] at hfail
    exact Bool.noConfusion hfail

/-- C3 amended-theorem witness: on the blank 2-by-2 board at index 3, with
a memo table holding 7 for the hash of the slice `mates[1..3)`, the search
returns 7. -/
theorem memo_slice_amended_witness :
    SolveAux B22 1 3
      B22.initSt
      (Memo.empty.insert 3
        (GetHash ((B22.initSt.mates.drop (B22.start 3)).take
          (3 - B22.start 3))) 7) =
      (7, B22.initSt,
        Memo.empty.insert 3
          (GetHash ((B22.initSt.mates.drop (B22.start 3)).take
            (3 - B22.start 3))) 7) :=
  memo_slice_amended B22 0 3 B22.initSt _ 7 (fun _ => by decide) (by decide)
    (by
      unfold Memo.insert
      rw [if_pos ⟨rfl, rfl⟩])

/-- C10 witness: with the left cell closed, the call backs out before any
mutation; with both cells fresh, the four writes are applied. -/
theorem uniteMates_early_return_witness :
    UniteMates [0, 0] ⟨[-1, 1], []⟩ 0 1 = (false, ⟨[-1, 1], []⟩) ∧
    (UniteMates [0, 0] ⟨[0, 1], []⟩ 0 1).2 = FourWrites ⟨[0, 1], []⟩ 0 1 :=
  ⟨(uniteMates_early_return [0, 0] ⟨[-1, 1], []⟩ 0 1).1 (by decide),
   (uniteMates_early_return [0, 0] ⟨[0, 1], []⟩ 0 1).2 (by decide)⟩

/-! ## The search invariants for the parity argument -/

/-- The board's label table is well-formed: one label per cell,
non-negative (0 = blank, positive = endpoint id). -/
def TableOk (B : Board) : Prop :=
  B.table.length = B.size ∧ ∀ x ∈ B.table, 0 ≤ x

/-- Search-wide state invariant: the well-formedness bundle, plus: a
labeled cell is never closed, and the two ends of a live chain never carry
different positive labels. -/
def CoreInv (B : Board) (m : List Int) : Prop :=
  GoodM B.size m ∧
  (∀ c, c < B.size → 0 < B.table.getD c 0 → m.getD c 0 ≠ -1) ∧
  (∀ c, c < B.size → 0 ≤ m.getD c 0 → m.getD c 0 ≠ (c : Int) →
    ¬(0 < B.table.getD c 0 ∧ 0 < B.table.getD (m.getD c 0).toNat 0 ∧
      B.table.getD c 0 ≠ B.table.getD (m.getD c 0).toNat 0))

/-- Cells at and after the current index are still untouched (self). -/
def FutureSelf (m : List Int) (fut size : Nat) : Prop :=
  ∀ j, fut ≤ j → j < size → m.getD j 0 = (j : Int)

/-- Every already-retired cell (key below the boundary) passed its retire
check and still satisfies it: a blank is self or closed, a labeled cell is
not self. -/
def RetOk (B : Board) (m : List Int) (bnd : Nat) : Prop :=
  ∀ c, c < bnd →
    (B.table.getD c 0 = 0 → m.getD c 0 = -1 ∨ m.getD c 0 = (c : Int)) ∧
    (B.table.getD c 0 ≠ 0 → m.getD c 0 ≠ (c : Int))

theorem table_getD_nonneg (B : Board) (hT : TableOk B) (c : Nat) :
    0 ≤ B.table.getD c 0 := by
  by_cases hc : c < B.table.length
  · rw [List.getD_eq_getElem?_getD, List.getElem?_eq_getElem hc]
    exact hT.2 _ (List.getElem_mem hc)
  · rw [List.getD_eq_default _ _ (le_of_not_lt hc)]

/-- A successful `UniteMates` leaves every late check unfired. -/
theorem UniteMates_true_checks (table : List Int) (s : St) (a b : Nat)
    (hsucc : (UniteMates table s a b).1 = true) :
    ¬((s.mates.getD a 0 = -1 ∨ s.mates.getD b 0 = -1) ∨
        ((a : Int) = s.mates.getD b 0 ∧ (b : Int) = s.mates.getD a 0)) ∧
    ¬((FourWrites s a b).mates.getD a 0 = -1 ∧ 0 < table.getD a 0) ∧
    ¬((FourWrites s a b).mates.getD b 0 = -1 ∧ 0 < table.getD b 0) ∧
    ¬(0 < table.getD (s.mates.getD a 0).toNat 0 ∧
      0 < table.getD (s.mates.getD b 0).toNat 0 ∧
      table.getD (s.mates.getD a 0).toNat 0 ≠
        table.getD (s.mates.getD b 0).toNat 0) := by
  by_cases he : (s.mates.getD a 0 = -1 ∨ s.mates.getD b 0 = -1) ∨
      ((a : Int) = s.mates.getD b 0 ∧ (b : Int) = s.mates.getD a 0)
  · rw [UniteMates_eq_of_early table s a b he] at hsucc
    exact absurd hsucc (by simp)
  · have hstep : UniteMates table s a b =
        (if (FourWrites s a b).mates.getD a 0 = -1 ∧ 0 < table.getD a 0 then
          (false, FourWrites s a b)
        else if (FourWrites s a b).mates.getD b 0 = -1 ∧
            0 < table.getD b 0 then
          (false, FourWrites s a b)
        else if 0 < table.getD (s.mates.getD a 0).toNat 0 ∧
            0 < table.getD (s.mates.getD b 0).toNat 0 ∧
            table.getD (s.mates.getD a 0).toNat 0 ≠
              table.getD (s.mates.getD b 0).toNat 0 then
          (false, FourWrites s a b)
        else (true, FourWrites s a b)) := by
      unfold UniteMates
      rw [if_neg (fun h => he (Or.inl h)), if_neg (fun h => he (Or.inr h))]
    refine ⟨he, ?_, ?_, ?_⟩
    · intro hc
      rw [hstep, if_pos hc] at hsucc
      exact Bool.noConfusion hsucc
    · intro hc
      rw [hstep] at hsucc
      by_cases h1 : (FourWrites s a b).mates.getD a 0 = -1 ∧
          0 < table.getD a 0
      · rw [if_pos h1] at hsucc
        exact Bool.noConfusion hsucc
      · rw [if_neg h1, if_pos hc] at hsucc
        exact Bool.noConfusion hsucc
    · intro hc
      rw [hstep] at hsucc
      by_cases h1 : (FourWrites s a b).mates.getD a 0 = -1 ∧
          0 < table.getD a 0
      · rw [if_pos h1] at hsucc
        exact Bool.noConfusion hsucc
      · rw [if_neg h1] at hsucc
        by_cases h2 : (FourWrites s a b).mates.getD b 0 = -1 ∧
            0 < table.getD b 0
        · rw [if_pos h2] at hsucc
          exact Bool.noConfusion hsucc
        · rw [if_neg h2, if_pos hc] at hsucc
          exact Bool.noConfusion hsucc


/-- A successful `UniteMates` call made the way the search makes it — the
current cell `a` against an earlier neighbor `b` that has not yet been
retired — preserves the whole invariant bundle. -/
theorem unite_success_preserves (B : Board) (s : St)
    (a b fut bnd : Nat)
    (hC : CoreInv B s.mates) (hF : FutureSelf s.mates fut B.size)
    (hRet : RetOk B s.mates bnd)
    (ha : a < B.size) (hb : b < B.size) (hab : a ≠ b)
    (hba : bnd ≤ a) (hbb : bnd ≤ b) (hfa : a ≤ fut) (hfb : b < fut)
    (hsucc : (UniteMates B.table s a b).1 = true) :
    CoreInv B (UniteMates B.table s a b).2.mates ∧
    FutureSelf (UniteMates B.table s a b).2.mates (max fut (a + 1)) B.size ∧
    RetOk B (UniteMates B.table s a b).2.mates bnd := by
  obtain ⟨hG, hLab, hCompat⟩ := hC
  have hGood' : GoodM B.size (UniteMates B.table s a b).2.mates :=
    UniteMates_preserves_good B.table B.size s a b hG ha hb hab
  obtain ⟨hlen, hR, hI⟩ := hG
  obtain ⟨he, hck1, hck2, hck3⟩ := UniteMates_true_checks B.table s a b hsucc
  have hn1 : s.mates.getD a 0 ≠ -1 := fun h => he (Or.inl (Or.inl h))
  have hn2 : s.mates.getD b 0 ≠ -1 := fun h => he (Or.inl (Or.inr h))
  have hnc : ¬((a : Int) = s.mates.getD b 0 ∧
      (b : Int) = s.mates.getD a 0) := fun h => he (Or.inr h)
  obtain ⟨hp1, hq1, hp2, hq2, hi1, hi2, hx1, hx2, hx3⟩ :=
    ends_facts B.size s a b hlen hR hI ha hb hab hn1 hn2 hnc
  rw [UniteMates_snd_of_not_early B.table s a b he] at hGood' ⊢
  have hfw : ∀ j : Nat, (FourWrites s a b).mates.getD j 0 =
      if j = (s.mates.getD b 0).toNat then s.mates.getD a 0
      else if j = (s.mates.getD a 0).toNat then s.mates.getD b 0
      else if j = b then -1
      else if j = a then -1
      else s.mates.getD j 0 := fun j =>
    FourWrites_getD s a b j (by omega) (by omega) (by omega) (by omega)
  have hE12 : (s.mates.getD a 0).toNat ≠ (s.mates.getD b 0).toNat := by omega
  have hfwb : (FourWrites s a b).mates.getD b 0 =
      if b = (s.mates.getD b 0).toNat then s.mates.getD a 0 else -1 := by
    rw [hfw b]
    by_cases h2 : b = (s.mates.getD b 0).toNat
    · rw [if_pos h2, if_pos h2]
    · rw [if_neg h2, if_neg (by omega : ¬b = (s.mates.getD a 0).toNat),
        if_pos rfl, if_neg h2]
  have hfwa : (FourWrites s a b).mates.getD a 0 =
      if a = (s.mates.getD a 0).toNat then s.mates.getD b 0 else -1 := by
    rw [hfw a]
    by_cases h1 : a = (s.mates.getD a 0).toNat
    · rw [if_neg (by omega : ¬a = (s.mates.getD b 0).toNat), if_pos h1,
        if_pos h1]
    · rw [if_neg (by omega : ¬a = (s.mates.getD b 0).toNat), if_neg h1,
        if_neg hab, if_pos rfl, if_neg h1]
  refine ⟨⟨hGood', ?_, ?_⟩, ?_, ?_⟩
  · -- a labeled cell is never closed
    intro c hc hpos
    rw [hfw c]
    by_cases h1 : c = (s.mates.getD b 0).toNat
    · rw [if_pos h1]
      exact hn1
    · rw [if_neg h1]
      by_cases h2 : c = (s.mates.getD a 0).toNat
      · rw [if_pos h2]
        exact hn2
      · rw [if_neg h2]
        by_cases h3 : c = b
        · subst h3
          exfalso
          apply hck2
          refine ⟨?_, hpos⟩
          rw [hfwb, if_neg (fun hcc => h1 hcc)]
        · rw [if_neg h3]
          by_cases h4 : c = a
          · subst h4
            exfalso
            apply hck1
            refine ⟨?_, hpos⟩
            rw [hfwa, if_neg (fun hcc => h2 hcc)]
          · rw [if_neg h4]
            exact hLab c hc hpos
  · -- compatible labels on every live pair
    intro c hc hnn hne
    rw [hfw c] at hnn hne ⊢
    by_cases h1 : c = (s.mates.getD b 0).toNat
    · rw [if_pos h1] at hnn hne ⊢
      rw [h1]
      rintro ⟨hpc, hpm, hnem⟩
      exact hck3 ⟨hpm, hpc, hnem.symm⟩
    · rw [if_neg h1] at hnn hne ⊢
      by_cases h2 : c = (s.mates.getD a 0).toNat
      · rw [if_pos h2] at hnn hne ⊢
        rw [h2]
        rintro ⟨hpc, hpm, hnem⟩
        exact hck3 ⟨hpc, hpm, hnem⟩
      · rw [if_neg h2] at hnn hne ⊢
        by_cases h3 : c = b
        · rw [if_pos h3] at hnn
          omega
        · rw [if_neg h3] at hnn hne ⊢
          by_cases h4 : c = a
          · rw [if_pos h4] at hnn
            omega
          · rw [if_neg h4] at hnn hne ⊢
            exact hCompat c hc hnn hne
  · -- untouched future cells
    intro j hj hjs
    rw [hfw j]
    have hjE2 : j ≠ (s.mates.getD b 0).toNat := by
      intro h
      have h5 := hF j (by omega) hjs
      rw [h, hi2] at h5
      omega
    have hjE1 : j ≠ (s.mates.getD a 0).toNat := by
      intro h
      have h5 := hF j (by omega) hjs
      rw [h, hi1] at h5
      omega
    rw [if_neg hjE2, if_neg hjE1, if_neg (by omega : ¬j = b),
      if_neg (by omega : ¬j = a)]
    exact hF j (by omega) hjs
  · -- retired cells stay valid
    intro c hc
    have hca : c ≠ a := by omega
    have hcb : c ≠ b := by omega
    rw [hfw c]
    by_cases h1 : c = (s.mates.getD b 0).toNat
    · rw [if_pos h1]
      constructor
      · intro ht
        exfalso
        rcases (hRet _ hc).1 ht with hv | hv <;> rw [h1, hi2] at hv <;> omega
      · intro _ hv
        rw [h1] at hv
        omega
    · rw [if_neg h1]
      by_cases h2 : c = (s.mates.getD a 0).toNat
      · rw [if_pos h2]
        constructor
        · intro ht
          exfalso
          rcases (hRet _ hc).1 ht with hv | hv <;>
            rw [h2, hi1] at hv <;> omega
        · intro _ hv
          rw [h2] at hv
          omega
      · rw [if_neg h2, if_neg hcb, if_neg hca]
        exact hRet c hc


/-! ## Facts about the look-back boundaries -/

theorem key_lt_of_cellLt (B : Board) (hw : 0 < B.width) (hh : 0 < B.height)
    (p q : Int × Int) (hp : B.inbP p) (hq : B.inbP q) (h : cellLt p q) :
    B.key p.1 p.2 < B.key q.1 q.2 := by
  obtain ⟨hkp, _, _⟩ := key_eq_rank B hw hh p hp
  obtain ⟨hkq, _, _⟩ := key_eq_rank B hw hh q hq
  rw [hkp, hkq]
  exact rankCell_lt B p q hp hq h

theorem key_lt_size (B : Board) (hw : 0 < B.width) (hh : 0 < B.height)
    (p : Int × Int) (hp : B.inbP p) : B.key p.1 p.2 < B.size := by
  obtain ⟨hkp, hlt, _⟩ := key_eq_rank B hw hh p hp
  rw [hkp]
  exact hlt

theorem start_eq_of_cell (B : Board) (k : Nat) (hk : k < B.size)
    (x y : Int) (hxy : B.keyToCell k = (x, y)) :
    B.start k =
      if 0 < y then B.key x (y - 1)
      else if 0 < x then B.key (x - 1) y
      else 0 := by
  unfold Board.start
  rw [if_pos hk, hxy]

theorem start_zero (B : Board) (h : 0 < B.size) : B.start 0 = 0 := by
  rw [start_eq_of_cell B 0 h 0 0 rfl]
  rw [if_neg (by omega), if_neg (by omega)]

theorem start_guard (B : Board) (k : Nat) (hk : ¬ k < B.size) :
    B.start k = B.size := by
  unfold Board.start
  rw [if_neg hk]

theorem start_le_size (B : Board) (hw : 0 < B.width) (hh : 0 < B.height)
    (k : Nat) : B.start k ≤ B.size := by
  by_cases hk : k < B.size
  · obtain ⟨hin, _⟩ := keyToCell_spec B hw hh k hk
    rcases hxy : B.keyToCell k with ⟨x, y⟩
    rw [hxy] at hin
    have hin' := (inbP_mk B x y).mp hin
    rw [start_eq_of_cell B k hk x y hxy]
    by_cases hy : (0 : Int) < y
    · rw [if_pos hy]
      exact le_of_lt (key_lt_size B hw hh (x, y - 1) (by rw [inbP_mk]; omega))
    · rw [if_neg hy]
      by_cases hx : (0 : Int) < x
      · rw [if_pos hx]
        exact le_of_lt
          (key_lt_size B hw hh (x - 1, y) (by rw [inbP_mk]; omega))
      · rw [if_neg hx]
        exact Nat.zero_le _
  · rw [start_guard B k hk]

/-- The facts the search needs about the backward neighbors of cell `k`:
both lie strictly before `k`, inside the board, and at or after the
look-back boundary `start k` (the up neighbor, when it exists, IS the
boundary). -/
theorem neighbor_facts (B : Board) (hw : 0 < B.width) (hh : 0 < B.height)
    (k : Nat) (hk : k < B.size) (x y : Int)
    (hxy : B.keyToCell k = (x, y)) :
    (0 < y → B.key x (y - 1) < k ∧ B.key x (y - 1) < B.size ∧
      B.start k = B.key x (y - 1))
    ∧ (0 < x → B.key (x - 1) y < k ∧ B.key (x - 1) y < B.size ∧
      B.start k ≤ B.key (x - 1) y)
    ∧ B.start k ≤ k := by
  obtain ⟨hin, hrk⟩ := keyToCell_spec B hw hh k hk
  rw [hxy] at hin
  have hin' := (inbP_mk B x y).mp hin
  have hkk : B.key x y = k := by
    have h := key_keyToCell B hw hh k hk
    rw [hxy] at h
    exact h
  have hstart := start_eq_of_cell B k hk x y hxy
  have hup : 0 < y → B.key x (y - 1) < k ∧ B.key x (y - 1) < B.size ∧
      B.start k = B.key x (y - 1) := by
    intro hy
    have hupin : B.inbP (x, y - 1) := by rw [inbP_mk]; omega
    have hlt : B.key x (y - 1) < k := by
      rw [← hkk]
      exact key_lt_of_cellLt B hw hh (x, y - 1) (x, y) hupin hin
        (by rw [cellLt_mk]; omega)
    exact ⟨hlt, key_lt_size B hw hh (x, y - 1) hupin, by rw [hstart, if_pos hy]⟩
  refine ⟨hup, ?_, ?_⟩
  · intro hx
    have hlfin : B.inbP (x - 1, y) := by rw [inbP_mk]; omega
    have hlt : B.key (x - 1) y < k := by
      rw [← hkk]
      exact key_lt_of_cellLt B hw hh (x - 1, y) (x, y) hlfin hin
        (by rw [cellLt_mk]; omega)
    refine ⟨hlt, key_lt_size B hw hh (x - 1, y) hlfin, ?_⟩
    by_cases hy : (0 : Int) < y
    · obtain ⟨_, _, hsk⟩ := hup hy
      rw [hsk]
      exact le_of_lt (key_lt_of_cellLt B hw hh (x, y - 1) (x - 1, y)
        (by rw [inbP_mk]; omega) hlfin (by rw [cellLt_mk]; omega))
    · rw [hstart, if_neg hy, if_pos hx]
  · by_cases hy : (0 : Int) < y
    · obtain ⟨hlt, _, hsk⟩ := hup hy
      omega
    · rw [hstart, if_neg hy]
      by_cases hx : (0 : Int) < x
      · rw [if_pos hx]
        have hlfin : B.inbP (x - 1, y) := by rw [inbP_mk]; omega
        have hlt : B.key (x - 1) y < k := by
          rw [← hkk]
          exact key_lt_of_cellLt B hw hh (x - 1, y) (x, y) hlfin hin
            (by rw [cellLt_mk]; omega)
        omega
      · rw [if_neg hx]
        exact Nat.zero_le _

/-- The look-back boundary never moves backwards from one index to the
next. -/
theorem start_succ_le (B : Board) (hw : 0 < B.width) (hh : 0 < B.height)
    (k : Nat) : B.start k ≤ B.start (k + 1) := by
  by_cases hk1 : k + 1 < B.size
  · have hk : k < B.size := by omega
    obtain ⟨hin0, hrk⟩ := keyToCell_spec B hw hh k hk
    rcases hxy : B.keyToCell k with ⟨x, y⟩
    rw [hxy] at hin0
    have hin' := (inbP_mk B x y).mp hin0
    have hmax : B.keyToCell k ≠ B.maxCell := by
      intro hc
      rw [hc, rankCell_max B hw hh] at hrk
      omega
    rw [hxy] at hmax
    have hmax' : ¬(x = (B.width : Int) - 1 ∧ y = (B.height : Int) - 1) := by
      intro hc
      apply hmax
      unfold Board.maxCell
      rw [hc.1, hc.2]
    have hsucc : B.keyToCell (k + 1) = succCell B (x, y) := by
      show B.nextCell B.stepFuel (B.keyToCell k) = _
      rw [hxy]
      exact nextCell_eq_succ B hw hh (x, y) hin0 hmax
    rw [succCell_mk] at hsucc
    have hstartk := start_eq_of_cell B k hk x y hxy
    by_cases hA : 0 < x ∧ y + 1 < (B.height : Int)
    · rw [if_pos hA] at hsucc
      have hstart1 := start_eq_of_cell B (k + 1) hk1 (x - 1) (y + 1) hsucc
      rw [if_pos (by omega : (0 : Int) < y + 1)] at hstart1
      have hy11 : (y + 1 - 1 : Int) = y := by omega
      rw [hy11] at hstart1
      rw [hstartk, hstart1]
      by_cases hy : (0 : Int) < y
      · rw [if_pos hy]
        exact le_of_lt (key_lt_of_cellLt B hw hh (x, y - 1) (x - 1, y)
          (by rw [inbP_mk]; omega) (by rw [inbP_mk]; omega)
          (by rw [cellLt_mk]; omega))
      · rw [if_neg hy, if_pos hA.1]
    · rw [if_neg hA] at hsucc
      obtain ⟨hin1, _⟩ := keyToCell_spec B hw hh (k + 1) hk1
      rw [hsucc] at hin1
      have hin1' := (inbP_mk B _ _).mp hin1
      have hstart1 := start_eq_of_cell B (k + 1) hk1 _ _ hsucc
      by_cases hy2 : (0 : Int) < x + y + 1 - min (x + y + 1) ((B.width : Int) - 1)
      · rw [if_pos hy2] at hstart1
        rw [hstartk, hstart1]
        have htarget : B.inbP (min (x + y + 1) ((B.width : Int) - 1),
            x + y + 1 - min (x + y + 1) ((B.width : Int) - 1) - 1) := by
          rw [inbP_mk]
          omega
        by_cases hy : (0 : Int) < y
        · rw [if_pos hy]
          exact le_of_lt (key_lt_of_cellLt B hw hh (x, y - 1) _
            (by rw [inbP_mk]; omega) htarget (by rw [cellLt_mk]; omega))
        · rw [if_neg hy]
          by_cases hx : (0 : Int) < x
          · rw [if_pos hx]
            exact le_of_lt (key_lt_of_cellLt B hw hh (x - 1, y) _
              (by rw [inbP_mk]; omega) htarget (by rw [cellLt_mk]; omega))
          · rw [if_neg hx]
            exact Nat.zero_le _
      · rw [if_neg hy2] at hstart1
        have hm : min (x + y + 1) ((B.width : Int) - 1) = x + y + 1 := by
          omega
        rw [if_pos (by omega : (0 : Int) <
          min (x + y + 1) ((B.width : Int) - 1))] at hstart1
        rw [hstartk, hstart1]
        have htarget : B.inbP (min (x + y + 1) ((B.width : Int) - 1) - 1,
            x + y + 1 - min (x + y + 1) ((B.width : Int) - 1)) := by
          rw [inbP_mk]
          omega
        by_cases hy : (0 : Int) < y
        · rw [if_pos hy]
          exact le_of_lt (key_lt_of_cellLt B hw hh (x, y - 1) _
            (by rw [inbP_mk]; omega) htarget (by rw [cellLt_mk]; omega))
        · rw [if_neg hy]
          by_cases hx : (0 : Int) < x
          · rw [if_pos hx]
            exact le_of_lt (key_lt_of_cellLt B hw hh (x - 1, y) _
              (by rw [inbP_mk]; omega) htarget (by rw [cellLt_mk]; omega))
          · rw [if_neg hx]
            exact Nat.zero_le _
  · rw [start_guard B (k + 1) (by omega)]
    exact start_le_size B hw hh k

/-- A passed retire check extends the retired-cells invariant from the
previous boundary to the current one. -/
theorem retok_extend (B : Board) (k : Nat) (m : List Int)
    (hpre : RetOk B m (B.start (k - 1)))
    (hpass : 0 < k → B.retirePass m k = true) :
    RetOk B m (B.start k) := by
  intro c hc
  by_cases hc1 : c < B.start (k - 1)
  · exact hpre c hc1
  · cases k with
    | zero => exact absurd hc (by simpa using hc1)
    | succ j =>
      have hp := hpass (Nat.succ_pos j)
      have hnone : ¬(B.retirePass m (j + 1) = false) := by
        rw [hp]
        exact fun hc => Bool.noConfusion hc
      rw [retirePass_false_iff] at hnone
      push_neg at hnone
      have hbad := hnone c (by omega) (by omega)
      constructor
      · intro ht
        by_cases h1 : m.getD c 0 = -1
        · exact Or.inl h1
        · exact Or.inr (hbad.1 ht h1)
      · exact hbad.2

/-! ## The search returns with the state it was given -/

theorem BranchUp_state_id (B : Board)
    (recur : Nat → St → Memo → Nat × St × Memo)
    (hrec : ∀ k' s' m', (recur k' s' m').2.1 = s')
    (k : Nat) (upK : Option Nat) (s0 : St) (m : Memo) :
    (BranchUp B recur k s0.stack.length upK s0 m).2.1 = s0 := by
  unfold BranchUp
  cases upK with
  | none => rfl
  | some up =>
    dsimp only
    split
    · rw [hrec]
      exact (UniteMates_evol B.table s0 k up).revert_exact
    · exact (UniteMates_evol B.table s0 k up).revert_exact

theorem BranchLeft_state_id (B : Board)
    (recur : Nat → St → Memo → Nat × St × Memo)
    (hrec : ∀ k' s' m', (recur k' s' m').2.1 = s')
    (k : Nat) (leftK upK : Option Nat) (s0 : St) (m : Memo) :
    (BranchLeft B recur k s0.stack.length leftK upK s0 m).2.1 = s0 := by
  unfold BranchLeft
  cases leftK with
  | none => rfl
  | some left =>
    dsimp only
    split
    · cases upK with
      | none =>
        dsimp only
        rw [hrec]
        exact (UniteMates_evol B.table s0 k left).revert_exact
      | some up =>
        dsimp only
        rw [hrec (k + 1) (UniteMates B.table s0 k left).2 m]
        split
        · rw [hrec]
          exact ((UniteMates_evol B.table s0 k left).trans
            (UniteMates_evol B.table _ k up)).revert_exact
        · exact ((UniteMates_evol B.table s0 k left).trans
            (UniteMates_evol B.table _ k up)).revert_exact
    · exact (UniteMates_evol B.table s0 k left).revert_exact

theorem Connect_state_id (B : Board)
    (recur : Nat → St → Memo → Nat × St × Memo)
    (hrec : ∀ k' s' m', (recur k' s' m').2.1 = s')
    (k : Nat) (s : St) (m : Memo) :
    (Connect B recur k s m).2.1 = s := by
  unfold Connect
  dsimp only
  rw [hrec (k + 1) s m]
  rw [BranchUp_state_id B recur hrec k _ s _]
  rw [BranchLeft_state_id B recur hrec k _ _ s _]

/-- The whole search always hands back exactly the connectivity state it
was called with. -/
theorem SolveAux_state_id (B : Board) :
    ∀ fuel k s m, (SolveAux B fuel k s m).2.1 = s := by
  intro fuel
  induction fuel with
  | zero => intro k s m; rfl
  | succ fuel ih =>
    intro k s m
    rw [SolveAux_succ]
    split
    · rfl
    · rw [AfterRetire_eq]
      split
      · rfl
      · split
        · rfl
        · dsimp only
          exact Connect_state_id B (SolveAux B fuel) ih k s m

/-! ## The parity argument -/

/-- A finite set carrying a fixed-point-free involution has even
cardinality. -/
theorem even_card_invol {α : Type} [DecidableEq α] (S : Finset α)
    (f : α → α) (hmem : ∀ a ∈ S, f a ∈ S) (hinv : ∀ a ∈ S, f (f a) = a)
    (hne : ∀ a ∈ S, f a ≠ a) : Even S.card := by
  induction S using Finset.strongInduction with
  | _ S ih =>
    by_cases hS : S = ∅
    · subst hS
      simp
    · obtain ⟨a, ha⟩ := Finset.nonempty_iff_ne_empty.mpr hS
      have hfa : f a ∈ S := hmem a ha
      have hfa_ne : f a ≠ a := hne a ha
      set S' := (S.erase a).erase (f a) with hS'
      have hsub : S' ⊂ S :=
        Finset.ssubset_of_subset_of_ssubset
          (Finset.erase_subset (f a) (S.erase a)) (Finset.erase_ssubset ha)
      have hmem' : ∀ c ∈ S', f c ∈ S' := by
        intro c hc
        have hc1 : c ≠ f a := (Finset.mem_erase.mp hc).1
        have hc2 : c ≠ a := (Finset.mem_erase.mp (Finset.mem_erase.mp hc).2).1
        have hc3 : c ∈ S := (Finset.mem_erase.mp (Finset.mem_erase.mp hc).2).2
        rw [Finset.mem_erase, Finset.mem_erase]
        refine ⟨?_, ?_, hmem c hc3⟩
        · intro hcc
          apply hc2
          have := congrArg f hcc
          rw [hinv c hc3, hinv a ha] at this
          exact this
        · intro hcc
          apply hc1
          rw [← hcc, hinv c hc3]
      have hinv' : ∀ c ∈ S', f (f c) = c := fun c hc =>
        hinv c (Finset.mem_erase.mp (Finset.mem_erase.mp hc).2).2
      have hne' : ∀ c ∈ S', f c ≠ c := fun c hc =>
        hne c (Finset.mem_erase.mp (Finset.mem_erase.mp hc).2).2
      have heven := ih S' hsub hmem' hinv' hne'
      have hfa_mem : f a ∈ S.erase a := Finset.mem_erase.mpr ⟨hfa_ne, hfa⟩
      have hcard : S'.card = S.card - 2 := by
        rw [hS', Finset.card_erase_of_mem hfa_mem,
          Finset.card_erase_of_mem ha]
        omega
      have hcard2 : 2 ≤ S.card := by
        have h1 : 0 < (S.erase a).card := Finset.card_pos.mpr ⟨f a, hfa_mem⟩
        have h2 : (S.erase a).card = S.card - 1 := Finset.card_erase_of_mem ha
        omega
      rw [Nat.even_iff] at heven ⊢
      omega

/-- In a terminal state — every cell retired and all invariants holding —
the cells carrying any fixed label `v > 0` pair up perfectly, so their
number is even. -/
theorem terminal_label_even (B : Board) (hT : TableOk B) (m : List Int)
    (hC : CoreInv B m) (hRet : RetOk B m B.size) (v : Int) (hv : 0 < v) :
    Even (((Finset.range B.size).filter
      (fun c => B.table.getD c 0 = v)).card) := by
  obtain ⟨⟨hlen, hR, hI⟩, hLab, hCompat⟩ := hC
  apply even_card_invol _ (fun c => (m.getD c 0).toNat)
  · -- the involution stays inside the label class
    intro c hc
    rw [Finset.mem_filter, Finset.mem_range] at hc ⊢
    obtain ⟨hcs, hcv⟩ := hc
    have hpos : 0 < B.table.getD c 0 := by omega
    have hnm : m.getD c 0 ≠ -1 := hLab c hcs hpos
    have hrange : 0 ≤ m.getD c 0 ∧ m.getD c 0 < (B.size : Int) := by
      rcases hR c hcs with h | h
      · exact absurd h hnm
      · exact h
    have hns : m.getD c 0 ≠ (c : Int) := (hRet c hcs).2 (by omega)
    have hfs : (m.getD c 0).toNat < B.size := by omega
    refine ⟨hfs, ?_⟩
    have hiv : m.getD (m.getD c 0).toNat 0 = (c : Int) := hI c hcs hrange.1
    by_contra hvne
    have hnn := table_getD_nonneg B hT (m.getD c 0).toNat
    by_cases hblank : B.table.getD (m.getD c 0).toNat 0 = 0
    · rcases (hRet _ hfs).1 hblank with hcc | hcc <;> rw [hiv] at hcc <;> omega
    · exact hCompat c hcs hrange.1 hns ⟨hpos, by omega, by omega⟩
  · -- applying the map twice returns to the start
    intro c hc
    rw [Finset.mem_filter, Finset.mem_range] at hc
    obtain ⟨hcs, hcv⟩ := hc
    have hpos : 0 < B.table.getD c 0 := by omega
    have hnm : m.getD c 0 ≠ -1 := hLab c hcs hpos
    have hrange : 0 ≤ m.getD c 0 ∧ m.getD c 0 < (B.size : Int) := by
      rcases hR c hcs with h | h
      · exact absurd h hnm
      · exact h
    have hiv : m.getD (m.getD c 0).toNat 0 = (c : Int) := hI c hcs hrange.1
    rw [hiv]
    omega
  · -- no fixed point
    intro c hc
    rw [Finset.mem_filter, Finset.mem_range] at hc
    obtain ⟨hcs, hcv⟩ := hc
    have hns : m.getD c 0 ≠ (c : Int) := (hRet c hcs).2 (by omega)
    have hpos : 0 < B.table.getD c 0 := by omega
    have hnm : m.getD c 0 ≠ -1 := hLab c hcs hpos
    have hrange : 0 ≤ m.getD c 0 ∧ m.getD c 0 < (B.size : Int) := by
      rcases hR c hcs with h | h
      · exact absurd h hnm
      · exact h
    omega

/-! ## Zero propagation through the search of an odd-label board -/

/-- All counts stored in the memo table are zero. -/
def MemoZero (m : Memo) : Prop := ∀ k h v, m k h = some v → v = 0

theorem BranchUp_zero (B : Board)
    (recur : Nat → St → Memo → Nat × St × Memo) (k : Nat)
    (hrec0 : ∀ s' m', CoreInv B s'.mates →
      FutureSelf s'.mates (k + 1) B.size → RetOk B s'.mates (B.start k) →
      MemoZero m' →
      (recur (k + 1) s' m').1 = 0 ∧ MemoZero (recur (k + 1) s' m').2.2)
    (upK : Option Nat)
    (hupK : ∀ up, upK = some up → up < k ∧ up < B.size ∧ B.start k ≤ up)
    (hk : k < B.size) (hsk : B.start k ≤ k) (s : St) (m : Memo)
    (hC : CoreInv B s.mates) (hF : FutureSelf s.mates k B.size)
    (hRet : RetOk B s.mates (B.start k)) (hm : MemoZero m) :
    (BranchUp B recur k s.stack.length upK s m).1 = 0 ∧
    MemoZero (BranchUp B recur k s.stack.length upK s m).2.2 := by
  unfold BranchUp
  cases upK with
  | none => exact ⟨rfl, hm⟩
  | some up =>
    obtain ⟨hup1, hup2, hup3⟩ := hupK up rfl
    dsimp only
    split
    · next hsucc =>
      obtain ⟨hC', hF', hRet'⟩ := unite_success_preserves B s k up k
        (B.start k) hC hF hRet hk hup2 (by omega) hsk hup3 (le_refl k)
        hup1 hsucc
      have hF'' : FutureSelf (UniteMates B.table s k up).2.mates (k + 1)
          B.size := fun j hj hjs => hF' j (by omega) hjs
      obtain ⟨hz, hmz⟩ := hrec0 (UniteMates B.table s k up).2 m hC' hF''
        hRet' hm
      exact ⟨hz, hmz⟩
    · exact ⟨rfl, hm⟩

theorem BranchLeft_zero (B : Board)
    (recur : Nat → St → Memo → Nat × St × Memo) (k : Nat)
    (hrec0 : ∀ s' m', CoreInv B s'.mates →
      FutureSelf s'.mates (k + 1) B.size → RetOk B s'.mates (B.start k) →
      MemoZero m' →
      (recur (k + 1) s' m').1 = 0 ∧ MemoZero (recur (k + 1) s' m').2.2)
    (hrecid : ∀ k' s' m', (recur k' s' m').2.1 = s')
    (leftK upK : Option Nat)
    (hleftK : ∀ l, leftK = some l → l < k ∧ l < B.size ∧ B.start k ≤ l)
    (hupK : ∀ up, upK = some up → up < k ∧ up < B.size ∧ B.start k ≤ up)
    (hk : k < B.size) (hsk : B.start k ≤ k) (s : St) (m : Memo)
    (hC : CoreInv B s.mates) (hF : FutureSelf s.mates k B.size)
    (hRet : RetOk B s.mates (B.start k)) (hm : MemoZero m) :
    (BranchLeft B recur k s.stack.length leftK upK s m).1 = 0 ∧
    MemoZero (BranchLeft B recur k s.stack.length leftK upK s m).2.2 := by
  unfold BranchLeft
  cases leftK with
  | none => exact ⟨rfl, hm⟩
  | some left =>
    obtain ⟨hl1, hl2, hl3⟩ := hleftK left rfl
    dsimp only
    split
    · next hsucc =>
      obtain ⟨hC1, hF1, hRet1⟩ := unite_success_preserves B s k left k
        (B.start k) hC hF hRet hk hl2 (by omega) hsk hl3 (le_refl k)
        hl1 hsucc
      have hF1' : FutureSelf (UniteMates B.table s k left).2.mates (k + 1)
          B.size := fun j hj hjs => hF1 j (by omega) hjs
      obtain ⟨hz1, hm1⟩ := hrec0 (UniteMates B.table s k left).2 m hC1 hF1'
        hRet1 hm
      cases upK with
      | none =>
        dsimp only
        exact ⟨hz1, hm1⟩
      | some up =>
        obtain ⟨hu1, hu2, hu3⟩ := hupK up rfl
        dsimp only
        rw [hrecid (k + 1) (UniteMates B.table s k left).2 m]
        split
        · next hsucc2 =>
          obtain ⟨hC2, hF2, hRet2⟩ := unite_success_preserves B
            (UniteMates B.table s k left).2 k up (k + 1) (B.start k)
            hC1 hF1' hRet1 hk hu2 (by omega) hsk hu3 (by omega) (by omega)
            hsucc2
          have hF2' : FutureSelf
              (UniteMates B.table (UniteMates B.table s k left).2 k up).2.mates
              (k + 1) B.size := fun j hj hjs => hF2 j (by omega) hjs
          obtain ⟨hz2, hm2⟩ := hrec0
            (UniteMates B.table (UniteMates B.table s k left).2 k up).2
            (recur (k + 1) (UniteMates B.table s k left).2 m).2.2
            hC2 hF2' hRet2 hm1
          refine ⟨?_, hm2⟩
          dsimp only
          omega
        · exact ⟨hz1, hm1⟩
    · exact ⟨rfl, hm⟩

theorem Connect_zero (B : Board) (hw : 0 < B.width) (hh : 0 < B.height)
    (recur : Nat → St → Memo → Nat × St × Memo) (k : Nat)
    (hrec0 : ∀ s' m', CoreInv B s'.mates →
      FutureSelf s'.mates (k + 1) B.size → RetOk B s'.mates (B.start k) →
      MemoZero m' →
      (recur (k + 1) s' m').1 = 0 ∧ MemoZero (recur (k + 1) s' m').2.2)
    (hrecid : ∀ k' s' m', (recur k' s' m').2.1 = s')
    (hk : k < B.size) (s : St) (m : Memo)
    (hC : CoreInv B s.mates) (hF : FutureSelf s.mates k B.size)
    (hRet : RetOk B s.mates (B.start k)) (hm : MemoZero m) :
    (Connect B recur k s m).1 = 0 ∧
    MemoZero (Connect B recur k s m).2.2 := by
  have hxyeq : B.keyToCell k = ((B.keyToCell k).1, (B.keyToCell k).2) := rfl
  obtain ⟨hupf, hleftf, hsk⟩ := neighbor_facts B hw hh k hk _ _ hxyeq
  have hupK : ∀ up, (if 0 < (B.keyToCell k).2 then
      some (B.key (B.keyToCell k).1 ((B.keyToCell k).2 - 1)) else none) =
      some up → up < k ∧ up < B.size ∧ B.start k ≤ up := by
    intro up hup
    by_cases hy : (0 : Int) < (B.keyToCell k).2
    · rw [if_pos hy] at hup
      obtain ⟨h1, h2, h3⟩ := hupf hy
      cases hup
      exact ⟨h1, h2, le_of_eq h3⟩
    · rw [if_neg hy] at hup
      exact Option.noConfusion hup
  have hleftK : ∀ l, (if 0 < (B.keyToCell k).1 then
      some (B.key ((B.keyToCell k).1 - 1) (B.keyToCell k).2) else none) =
      some l → l < k ∧ l < B.size ∧ B.start k ≤ l := by
    intro l hl
    by_cases hx : (0 : Int) < (B.keyToCell k).1
    · rw [if_pos hx] at hl
      obtain ⟨h1, h2, h3⟩ := hleftf hx
      cases hl
      exact ⟨h1, h2, h3⟩
    · rw [if_neg hx] at hl
      exact Option.noConfusion hl
  have hF1 : FutureSelf s.mates (k + 1) B.size :=
    fun j hj hjs => hF j (by omega) hjs
  obtain ⟨hz1, hm1⟩ := hrec0 s m hC hF1 hRet hm
  unfold Connect
  dsimp only
  rw [hrecid (k + 1) s m]
  obtain ⟨hz2, hm2⟩ := BranchUp_zero B recur k hrec0 _ hupK hk hsk s
    (recur (k + 1) s m).2.2 hC hF hRet hm1
  rw [BranchUp_state_id B recur hrecid k _ s _]
  obtain ⟨hz3, hm3⟩ := BranchLeft_zero B recur k hrec0 hrecid _ _ hleftK
    hupK hk hsk s
    (BranchUp B recur k s.stack.length
      (if 0 < (B.keyToCell k).2 then
        some (B.key (B.keyToCell k).1 ((B.keyToCell k).2 - 1)) else none)
      s (recur (k + 1) s m).2.2).2.2
    hC hF hRet hm2
  refine ⟨?_, hm3⟩
  dsimp only
  omega

/-- The core induction: on a board where some positive label occurs an odd
number of times, every search call from a state satisfying the invariants
returns a zero count and leaves only zeros in the memo table. -/
theorem solve_zero (B : Board) (hw : 0 < B.width) (hh : 0 < B.height)
    (hT : TableOk B) (v : Int) (hv : 0 < v)
    (hodd : ¬Even (((Finset.range B.size).filter
      (fun c => B.table.getD c 0 = v)).card)) :
    ∀ fuel k s m, k ≤ B.size → CoreInv B s.mates →
      FutureSelf s.mates k B.size → RetOk B s.mates (B.start (k - 1)) →
      MemoZero m →
      (SolveAux B fuel k s m).1 = 0 ∧
      MemoZero (SolveAux B fuel k s m).2.2 := by
  intro fuel
  induction fuel with
  | zero =>
    intro k s m _ _ _ _ hm
    exact ⟨rfl, hm⟩
  | succ fuel ih =>
    intro k s m hk hC hF hRet hm
    rw [SolveAux_succ]
    split
    · exact ⟨rfl, hm⟩
    · next hcond =>
      have hpass : 0 < k → B.retirePass s.mates k = true := by
        intro hk0
        by_contra hc
        exact hcond ⟨hk0, by simpa using hc⟩
      have hRet' : RetOk B s.mates (B.start k) :=
        retok_extend B k s.mates hRet hpass
      rw [AfterRetire_eq]
      split
      · next hterm =>
        exfalso
        apply hodd
        apply terminal_label_even B hT s.mates hC _ v hv
        rw [hterm] at hRet'
        rw [start_guard B B.size (lt_irrefl _)] at hRet'
        exact hRet'
      · next hterm =>
        split
        · next v' heq =>
          exact ⟨hm _ _ _ heq, hm⟩
        · next heq =>
          have hk' : k < B.size := by omega
          have hrec0 : ∀ s' m', CoreInv B s'.mates →
              FutureSelf s'.mates (k + 1) B.size →
              RetOk B s'.mates (B.start k) → MemoZero m' →
              (SolveAux B fuel (k + 1) s' m').1 = 0 ∧
              MemoZero (SolveAux B fuel (k + 1) s' m').2.2 := by
            intro s' m' hC' hF' hRet'' hm'
            exact ih (k + 1) s' m' (by omega) hC' hF' hRet'' hm'
          obtain ⟨hz, hmz⟩ := Connect_zero B hw hh (SolveAux B fuel) k
            hrec0 (SolveAux_state_id B fuel) hk' s m hC hF hRet' hm
          dsimp only
          refine ⟨hz, ?_⟩
          intro k'' h'' v'' hv''
          unfold Memo.insert at hv''
          by_cases hcc : k'' = k ∧ h'' = GetHash (B.mateTuple s.mates k)
          · rw [if_pos hcc] at hv''
            injection hv'' with hv3
            omega
          · rw [if_neg hcc] at hv''
            exact hmz _ _ _ hv''

/-- C8. Odd labels kill the count: for every board in which some label
value greater than 0 occurs an odd number of times, the search yields a
solution count of 0. -/
theorem odd_label_count_zero (B : Board) (hw : 0 < B.width)
    (hh : 0 < B.height) (hlen : B.table.length = B.size)
    (hnn : ∀ x ∈ B.table, 0 ≤ x) (v : Int) (hv : 0 < v)
    (hodd : Odd (((Finset.range B.size).filter
      (fun c => B.table.getD c 0 = v)).card)) :
    B.solve = 0 := by
  have hT : TableOk B := ⟨hlen, hnn⟩
  have hCinit : CoreInv B B.initSt.mates := by
    refine ⟨initSt_good B, ?_, ?_⟩
    · intro c hc _
      rw [initSt_getD B c, if_pos hc]
      omega
    · intro c hc _ hne
      rw [initSt_getD B c, if_pos hc] at hne
      exact absurd rfl hne
  have hFinit : FutureSelf B.initSt.mates 0 B.size := by
    intro j _ hjs
    rw [initSt_getD B j, if_pos hjs]
  have hRinit : RetOk B B.initSt.mates (B.start (0 - 1)) := by
    intro c hc
    have hz : B.start 0 = 0 := start_zero B (Nat.mul_pos hw hh)
    rw [show (0 - 1 : Nat) = 0 from rfl, hz] at hc
    exact absurd hc (by omega)
  unfold Board.solve
  exact (solve_zero B hw hh hT v hv
    (by rwa [← Nat.not_even_iff_odd] at hodd) (B.size + 1) 0 B.initSt
    Memo.empty (Nat.zero_le _) hCinit hFinit hRinit
    (fun _ _ _ h => Option.noConfusion h)).1

/-- C8 witness: the 1-by-1 board holding one lone label 5 has solution
count 0. -/
theorem odd_label_count_zero_witness : (Board.mk 1 1 [5]).solve = 0 :=
  odd_label_count_zero ⟨1, 1, [5]⟩ (by decide) (by decide) (by decide)
    (by decide) 5 (by decide) (by decide)

end NumberLink
